import Mathlib

/-!
# agentskills-go: rule validator and frontmatter extractor

A shallow embedding of `validate.go`, `parse.go`, `prompt.go`, `skill.go` and
`errors.go`, followed by the properties proved about them.

Conventions of the embedding.

* A Go `string` is modelled by the list of its runes (`Str`); the text is taken
  to be well-formed UTF-8, so that searching and slicing by bytes and by runes
  coincide.  `len` is the byte length, as in Go.
* A Go `map[string]any` is modelled by an association list.  The order of the
  list is the order in which `range` visits the map in the run under
  consideration; look-ups take the entry of a key.
* Go's standard library is modelled function by function (`strings`,
  `path/filepath`, `fmt` verbs).  The Unicode tables (`unicode.IsLetter`,
  `unicode.IsDigit`, `unicode.ToLower`, `norm.NFKC`), the YAML decoder and the
  file system (`os.Stat`, `os.ReadFile`, `filepath.Join`, `filepath.Abs`) are
  parameters of the functions that use them.
* A Go `error` is a value of `Err`; `errorsIs` is `errors.Is` against one of the
  package's sentinel errors.
-/

namespace AgentSkills

/-! ## Strings -/

/-- A Go string of UTF-8 text, as the list of its runes. -/
abbrev Str := List Char

/-- Go's built-in `len` on a string: the number of bytes of its UTF-8 encoding. -/
def len (s : Str) : Nat := (s.map Char.utf8Size).sum

/-- Go's `utf8.RuneCountInString`: the number of characters. -/
def runeCount (s : Str) : Nat := s.length

/-- Go's `strings.HasPrefix`. -/
def HasPrefix (s pre : Str) : Bool := pre.isPrefixOf s

/-- Go's `strings.HasSuffix`. -/
def HasSuffix (s suf : Str) : Bool := suf.isSuffixOf s

/-- Go's `strings.Index`: position of the first occurrence of `sep` in `s`, `none` for Go's `-1`. -/
def Index : Str → Str → Option Nat
  | [], sep => if sep = [] then some 0 else none
  | c :: s, sep =>
    if HasPrefix (c :: s) sep then some 0
    else (Index s sep).map (· + 1)

/-- Go's `strings.Contains`: `Index(s, substr) >= 0`. -/
def Contains (s substr : Str) : Bool := (Index s substr).isSome

/-- Go's `strings.Join`. -/
def Join : List Str → Str → Str
  | [], _ => []
  | [a], _ => a
  | a :: b :: rest, sep => a ++ sep ++ Join (b :: rest) sep

/-- Go's `unicode.IsSpace`: the Latin-1 spaces and the code points with the
White_Space property. -/
def IsSpace (r : Char) : Bool :=
  let n := r.toNat
  (9 ≤ n && n ≤ 13) || n = 0x20 || n = 0x85 || n = 0xA0 || n = 0x1680 ||
  (0x2000 ≤ n && n ≤ 0x200A) || n = 0x2028 || n = 0x2029 || n = 0x202F ||
  n = 0x205F || n = 0x3000

/-- Go's `strings.TrimSpace`: leading and trailing white space removed. -/
def TrimSpace (s : Str) : Str := (s.dropWhile IsSpace).rdropWhile IsSpace

/-- The loop of Go's `strings.genSplit`: at most `n` further cuts at `sep`. -/
def splitLoop (sep : Str) : Nat → Str → List Str
  | 0, s => [s]
  | n + 1, s =>
    match Index s sep with
    | none => [s]
    | some m => s.take m :: splitLoop sep n (s.drop (m + sep.length))

/-- Go's `strings.explode`: the string cut into single runes, at most `n`
pieces, the last one holding the remainder. -/
def explode : Nat → Str → List Str
  | _, [] => []
  | 0, _ => []
  | 1, s => [s]
  | n + 2, c :: s => [c] :: explode (n + 1) s

/-- Go's `strings.SplitN(s, sep, n)` for `n ≥ 0` (`genSplit` with `sepSave = 0`; the package
calls it with `n = 3` only). -/
def SplitN (s sep : Str) (n : Nat) : List Str :=
  if n = 0 then []
  else if sep = [] then explode n s
  else
    let n := if n > len s + 1 then len s + 1 else n
    splitLoop sep (n - 1) s

/-- Go's `filepath.Base` on a Unix system (separator `/`, no volume names). -/
def Base (path : Str) : Str :=
  if path = [] then ['.']
  else
    let path := path.rdropWhile (· = '/')
    let path := path.rtakeWhile (· ≠ '/')
    if path = [] then ['/'] else path

/-- The verb `%d` of Go's `fmt` on a non-negative integer. -/
def fmtInt (n : Nat) : Str := Nat.toDigits 10 n

/-- The verb `%v` of Go's `fmt` on a `[]string`. -/
def fmtStrings (xs : List Str) : Str := ['['] ++ Join xs [' '] ++ [']']

/-- The Unicode routines the validator calls, outside this repository. -/
structure UnicodeLib where
  /-- Is `norm.NFKC.String`. -/
  nfkc : Str → Str
  /-- Is `unicode.ToLower`. -/
  toLowerRune : Char → Char
  /-- Is `unicode.IsLetter`. -/
  isLetter : Char → Bool
  /-- Is `unicode.IsDigit`. -/
  isDigit : Char → Bool

/-- Go's `strings.ToLower`: `unicode.ToLower` applied to every rune. -/
def ToLower (U : UnicodeLib) (s : Str) : Str := s.map U.toLowerRune

/-! ## errors.go -/

/-- The sentinel errors of `errors.go`, each a distinct `errors.New` value. -/
inductive Sentinel
  | SkillMDNotFound
  | MissingFrontmatter
  | UnclosedFrontmatter
  | InvalidYAML
  | FrontmatterNotMapping
  | MissingName
  | MissingDescription
  | NameEmpty
  | DescriptionEmpty
  | NameNotLowercase
  | NameLeadingHyphen
  | NameConsecutiveHyphen
  | NameInvalidChars
  | PathNotExist
  | PathNotDirectory
  deriving DecidableEq, Repr

/-- The message given to `errors.New` for each sentinel. -/
def Sentinel.text : Sentinel → Str
  | .SkillMDNotFound => "SKILL.md not found".toList
  | .MissingFrontmatter => "SKILL.md must start with YAML frontmatter (---)".toList
  | .UnclosedFrontmatter => "SKILL.md frontmatter not properly closed with ---".toList
  | .InvalidYAML => "invalid YAML in frontmatter".toList
  | .FrontmatterNotMapping => "SKILL.md frontmatter must be a YAML mapping".toList
  | .MissingName => "missing required field in frontmatter: name".toList
  | .MissingDescription => "missing required field in frontmatter: description".toList
  | .NameEmpty => "field 'name' must be a non-empty string".toList
  | .DescriptionEmpty => "field 'description' must be a non-empty string".toList
  | .NameNotLowercase => "skill name must be lowercase".toList
  | .NameLeadingHyphen => "skill name cannot start or end with a hyphen".toList
  | .NameConsecutiveHyphen => "skill name cannot contain consecutive hyphens".toList
  | .NameInvalidChars => "skill name contains invalid characters".toList
  | .PathNotExist => "path does not exist".toList
  | .PathNotDirectory => "path is not a directory".toList

/-- A Go `error` value of this package. -/
inductive Err
  /-- One of the package's sentinel variables. -/
  | sentinel (s : Sentinel)
  /-- A value of `fmt.Errorf` whose format has no `%w`: it carries a message only. -/
  | errorf (msg : Str)
  /-- A value of `fmt.Errorf` whose format has one `%w`, wrapping `cause`. -/
  | wrapf (msg : Str) (cause : Err)
  /-- A `*ParseError`. -/
  | ParseError (Path : Str) (Err : Err)
  /-- A `*ValidationError` whose `Err` field is set. -/
  | ValidationError (Field Message : Str) (Err : Err)
  /-- A `*ValidationError` whose `Err` field is nil. -/
  | ValidationErrorNil (Field Message : Str)
  /-- An error made outside the package (operating system). -/
  | external (msg : Str)
  deriving DecidableEq, Repr

/-- The method `Error()` of each kind of error. -/
def Err.Error : Err → Str
  | .sentinel s => s.text
  | .errorf msg => msg
  | .wrapf msg _ => msg
  | .ParseError Path e =>
    if Path ≠ [] then Path ++ ": ".toList ++ e.Error else e.Error
  | .ValidationError _ _ e => e.Error
  | .ValidationErrorNil Field Message =>
    if Field ≠ [] then Field ++ ": ".toList ++ Message else Message
  | .external msg => msg

/-- Go's `errors.Is(err, target)` for a sentinel `target`: `err` is the sentinel itself (the
sentinels are compared by identity) or reaches it by `Unwrap`. -/
def errorsIs : Err → Sentinel → Bool
  | .sentinel s, target => s = target
  | .errorf _, _ => false
  | .wrapf _ cause, target => errorsIs cause target
  | .ParseError _ e, target => errorsIs e target
  | .ValidationError _ _ e, target => errorsIs e target
  | .ValidationErrorNil _ _, _ => false
  | .external _, _ => false

def ErrSkillMDNotFound : Err := .sentinel .SkillMDNotFound
def ErrMissingFrontmatter : Err := .sentinel .MissingFrontmatter
def ErrUnclosedFrontmatter : Err := .sentinel .UnclosedFrontmatter
def ErrInvalidYAML : Err := .sentinel .InvalidYAML
def ErrFrontmatterNotMapping : Err := .sentinel .FrontmatterNotMapping
def ErrMissingName : Err := .sentinel .MissingName
def ErrMissingDescription : Err := .sentinel .MissingDescription
def ErrNameEmpty : Err := .sentinel .NameEmpty
def ErrDescriptionEmpty : Err := .sentinel .DescriptionEmpty
def ErrNameNotLowercase : Err := .sentinel .NameNotLowercase
def ErrNameLeadingHyphen : Err := .sentinel .NameLeadingHyphen
def ErrNameConsecutiveHyphen : Err := .sentinel .NameConsecutiveHyphen
def ErrNameInvalidChars : Err := .sentinel .NameInvalidChars
def ErrPathNotExist : Err := .sentinel .PathNotExist
def ErrPathNotDirectory : Err := .sentinel .PathNotDirectory

/-! ## Decoded frontmatter -/

/-- A value produced by the YAML decoder (Go's `any`); floating-point scalars are outside the
model.  `strMap` is a `map[string]string`, which the decoder never produces itself. -/
inductive Value
  | str (s : Str)
  | int (i : Int)
  | bool (b : Bool)
  | null
  | list (xs : List Value)
  | map (kvs : List (Str × Value))
  | strMap (kvs : List (Str × Str))

instance : Inhabited Value := ⟨Value.null⟩

/-- A `map[string]any`: the decoded frontmatter. -/
abbrev RawMetadata := List (Str × Value)

/-- The type assertion `v.(string)`: the string and `ok`. -/
def Value.asString : Value → Str × Bool
  | .str s => (s, true)
  | _ => ([], false)

/-! ## validate.go -/

def MaxSkillNameLength : Nat := 64
def MaxDescriptionLength : Nat := 1024
def MaxCompatibilityLength : Nat := 500

/-- The map `allowedFields`, in the order of its declaration. -/
def allowedFields : List (Str × Bool) :=
  [("name".toList, true), ("description".toList, true), ("license".toList, true),
   ("allowed-tools".toList, true), ("metadata".toList, true), ("compatibility".toList, true)]

/-- The index expression `allowedFields[key]`: `false` for an absent key. -/
def allowedFieldsAt (key : Str) : Bool := (allowedFields.lookup key).getD false

/-- Go's `validateName(name, skillDir)`. -/
def validateName (U : UnicodeLib) (name skillDir : Str) : List Err :=
  let errs : List Err := []
  if name = [] then errs ++ [ErrNameEmpty]
  else
    let name := U.nfkc (TrimSpace name)
    let errs :=
      if len name > MaxSkillNameLength then
        errs ++ [Err.errorf ("skill name '".toList ++ name ++ "' exceeds ".toList ++
          fmtInt MaxSkillNameLength ++ " character limit (".toList ++ fmtInt (len name) ++
          " chars)".toList)]
      else errs
    let errs :=
      if name ≠ ToLower U name then
        errs ++ [Err.errorf ("skill name '".toList ++ name ++ "' must be lowercase".toList)]
      else errs
    let errs :=
      if HasPrefix name "-".toList || HasSuffix name "-".toList then
        errs ++ [ErrNameLeadingHyphen]
      else errs
    let errs :=
      if Contains name "--".toList then errs ++ [ErrNameConsecutiveHyphen] else errs
    let errs :=
      if name.any (fun r => !U.isLetter r && !U.isDigit r && r != '-') then
        errs ++ [Err.errorf ("skill name '".toList ++ name ++
          "' contains invalid characters. Only letters, digits, and hyphens are allowed".toList)]
      else errs
    let errs :=
      if skillDir ≠ [] then
        let dirName := U.nfkc (Base skillDir)
        if dirName ≠ name then
          errs ++ [Err.errorf ("directory name '".toList ++ Base skillDir ++
            "' must match skill name '".toList ++ name ++ "'".toList)]
        else errs
      else errs
    errs

/-- Go's `validateDescription(description)`. -/
def validateDescription (description : Str) : List Err :=
  let errs : List Err := []
  if description = [] then errs ++ [ErrDescriptionEmpty]
  else
    let errs :=
      if len description > MaxDescriptionLength then
        errs ++ [Err.errorf ("description exceeds ".toList ++ fmtInt MaxDescriptionLength ++
          " character limit (".toList ++ fmtInt (len description) ++ " chars)".toList)]
      else errs
    errs

/-- Go's `validateCompatibility(compatibility)`. -/
def validateCompatibility (compatibility : Str) : List Err :=
  let errs : List Err := []
  let errs :=
    if len compatibility > MaxCompatibilityLength then
      errs ++ [Err.errorf ("compatibility exceeds ".toList ++ fmtInt MaxCompatibilityLength ++
        " character limit (".toList ++ fmtInt (len compatibility) ++ " chars)".toList)]
    else errs
  errs

/-- The keys the loop `for key := range metadata` of `validateMetadataFields` appends to
`extraFields`, in the order of the visit. -/
def extraFields (metadata : RawMetadata) : List Str :=
  (metadata.map Prod.fst).filter (fun key => !allowedFieldsAt key)

/-- Go's `validateMetadataFields(metadata)`.  `allowed` is the slice the loop
`for k := range allowedFields` builds: the six keys in the order of that visit. -/
def validateMetadataFields (allowed : List Str) (metadata : RawMetadata) : List Err :=
  let errs : List Err := []
  let extraFields := extraFields metadata
  let errs :=
    if extraFields.length > 0 then
      errs ++ [Err.errorf ("unexpected fields in frontmatter: ".toList ++
        Join extraFields ", ".toList ++ ". Only ".toList ++ fmtStrings allowed ++
        " are allowed".toList)]
    else errs
  errs

/-- Go's `ValidateMetadata(metadata, skillDir)`. -/
def ValidateMetadata (U : UnicodeLib) (allowed : List Str) (metadata : RawMetadata)
    (skillDir : Str) : List Err :=
  let errs : List Err := []
  let errs := errs ++ validateMetadataFields allowed metadata
  let errs :=
    match metadata.lookup "name".toList with
    | none => errs ++ [ErrMissingName]
    | some name => errs ++ validateName U name.asString.1 skillDir
  let errs :=
    match metadata.lookup "description".toList with
    | none => errs ++ [ErrMissingDescription]
    | some desc => errs ++ validateDescription desc.asString.1
  let errs :=
    match metadata.lookup "compatibility".toList with
    | some (.str compat) => errs ++ validateCompatibility compat
    | _ => errs
  errs

/-! ## parse.go -/

/-- The YAML library, outside this repository. -/
structure YamlLib where
  /-- Is `yaml.Unmarshal` into a nil `map[string]any`: the message of the decoding error, or
  the decoded map, `none` when the map is left nil. -/
  Unmarshal : Str → Except Str (Option RawMetadata)
  /-- Is `fmt.Sprintf("%v", v)` on a decoded value. -/
  Sprint : Value → Str

/-- The three results `(metadata, body, err)` of `parseFrontmatter`. -/
structure ParseResult where
  metadata : Option RawMetadata
  body : Str
  err : Option Err

/-- The assignment `m[key] = v` on a map that holds `key`. -/
def mapSet (m : RawMetadata) (key : Str) (v : Value) : RawMetadata :=
  m.map (fun kv => if kv.1 = key then (key, v) else kv)

/-- Go's `parseFrontmatter(content)`. -/
def parseFrontmatter (Y : YamlLib) (content : Str) : ParseResult :=
  if !HasPrefix content "---".toList then
    ⟨none, [], some (.ParseError [] ErrMissingFrontmatter)⟩
  else
    let parts := SplitN content "---".toList 3
    if parts.length < 3 then
      ⟨none, [], some (.ParseError [] ErrUnclosedFrontmatter)⟩
    else
      let frontmatterStr := parts.getD 1 []
      let body := TrimSpace (parts.getD 2 [])
      match Y.Unmarshal frontmatterStr with
      | .error e =>
        ⟨none, [], some (.ParseError []
          (.wrapf (ErrInvalidYAML.Error ++ ": ".toList ++ e) ErrInvalidYAML))⟩
      | .ok none => ⟨none, [], some (.ParseError [] ErrFrontmatterNotMapping)⟩
      | .ok (some metadata) =>
        let metadata :=
          match metadata.lookup "metadata".toList with
          | some (.map metaMap) =>
            mapSet metadata "metadata".toList
              (.strMap (metaMap.map (fun kv => (kv.1, Y.Sprint kv.2))))
          | _ => metadata
        ⟨some metadata, body, none⟩

/-! ## errors.go: the aggregate -/

/-- Go's `strings.TrimRight(s, cutset)`: the trailing runes that occur in `cutset` removed. -/
def TrimRight (s cutset : Str) : Str := s.rdropWhile (fun r => decide (r ∈ cutset))

/-- The struct `ValidationErrors`. -/
structure ValidationErrors where
  Errors : List Err
  deriving DecidableEq

/-- The loop of `ValidationErrors.Error`: one line `  - message` per error, written to the
builder `sb`. -/
def writeErrors (sb : Str) : List Err → Str
  | [] => sb
  | err :: rest => writeErrors (sb ++ "  - ".toList ++ err.Error ++ "\n".toList) rest

/-- The method `Error()` of `*ValidationErrors`. -/
def ValidationErrors.Error (e : ValidationErrors) : Str :=
  match e.Errors with
  | [] => "validation failed".toList
  | [err] => err.Error
  | errs =>
    let sb : Str := []
    let sb := sb ++ "validation failed with ".toList
    let sb := sb ++ (fmtInt errs.length ++ " errors:\n".toList)
    let sb := writeErrors sb errs
    TrimRight sb "\n".toList

/-- The method `Unwrap()` of `*ValidationErrors`. -/
def ValidationErrors.Unwrap (e : ValidationErrors) : List Err := e.Errors

/-- The method `Add(err)`, as the value of the receiver after the call. -/
def ValidationErrors.Add (e : ValidationErrors) (err : Err) : ValidationErrors :=
  ⟨e.Errors ++ [err]⟩

/-- The method `AddMessage(msg)`, as the value of the receiver after the call; `errors.New(msg)`
is, like a value of `fmt.Errorf` without `%w`, an error that carries a message only. -/
def ValidationErrors.AddMessage (e : ValidationErrors) (msg : Str) : ValidationErrors :=
  ⟨e.Errors ++ [Err.errorf msg]⟩

/-- The method `HasErrors()`. -/
def ValidationErrors.HasErrors (e : ValidationErrors) : Bool := decide (e.Errors.length > 0)

/-- The method `AsError()`: `none` is the nil error. -/
def ValidationErrors.AsError (e : ValidationErrors) : Option ValidationErrors :=
  if !e.HasErrors then none else some e

/-- Go's `errors.Is(err, target)` for an `err` that is a `*ValidationErrors` and a sentinel
`target`: the aggregate is no sentinel, so one of the errors of `Unwrap()` has to match. -/
def ValidationErrors.errorsIs (e : ValidationErrors) (target : Sentinel) : Bool :=
  e.Unwrap.any (fun err => AgentSkills.errorsIs err target)

/-! ## skill.go -/

/-- The struct `SkillProperties`; a nil `Metadata` map is `none`. -/
structure SkillProperties where
  Name : Str
  Description : Str
  License : Str
  Compatibility : Str
  AllowedTools : Str
  Metadata : Option (List (Str × Str))
  deriving DecidableEq

/-! ## The file system -/

/-- The outcome of `os.Stat`. -/
inductive StatResult
  /-- An error for which `os.IsNotExist` holds. -/
  | notExist (err : Err)
  /-- Any other error. -/
  | failed (err : Err)
  /-- No error: the `FileInfo`, of which the package reads `IsDir()` only. -/
  | info (IsDir : Bool)

/-- The file system and the path routines, as the calls of the package see them. -/
structure FileSystem where
  /-- Is `os.Stat`. -/
  Stat : Str → StatResult
  /-- Is `os.ReadFile`, the bytes converted to a string. -/
  ReadFile : Str → Except Err Str
  /-- Is `filepath.Join` of two elements. -/
  Join : Str → Str → Str

/-! ## parse.go: the reader -/

/-- The loop of `findSkillMD` over the candidate file names. -/
def findSkillMDLoop (F : FileSystem) (skillDir : Str) : List Str → Str
  | [] => []
  | name :: rest =>
    let path := F.Join skillDir name
    match F.Stat path with
    | .info _ => path
    | _ => findSkillMDLoop F skillDir rest

/-- Go's `findSkillMD(skillDir)`. -/
def findSkillMD (F : FileSystem) (skillDir : Str) : Str :=
  findSkillMDLoop F skillDir ["SKILL.md".toList, "skill.md".toList]

/-- The type assertion `v.(map[string]string)` in its comma-ok form, applied to the result of an
index expression. -/
def asStrMap : Option Value → Option (List (Str × Str))
  | some (.strMap m) => some m
  | _ => none

/-- The type assertion `v.(string)` in its comma-ok form, applied to the result of an index
expression. -/
def asStr : Option Value → Option Str
  | some (.str s) => some s
  | _ => none

/-- The second half of `ReadProperties`: the checks of the required fields and the copy of the
optional fields, on the mapping that `parseFrontmatter` returned. -/
def readFields (metadata : RawMetadata) : Except Err SkillProperties :=
  match metadata.lookup "name".toList with
  | none => .error (.ValidationError "name".toList [] ErrMissingName)
  | some name =>
    let (nameStr, ok) := name.asString
    if !ok || TrimSpace nameStr = [] then
      .error (.ValidationError "name".toList [] ErrNameEmpty)
    else
      match metadata.lookup "description".toList with
      | none => .error (.ValidationError "description".toList [] ErrMissingDescription)
      | some desc =>
        let (descStr, ok) := desc.asString
        if !ok || TrimSpace descStr = [] then
          .error (.ValidationError "description".toList [] ErrDescriptionEmpty)
        else
          let props : SkillProperties :=
            { Name := TrimSpace nameStr, Description := TrimSpace descStr,
              License := [], Compatibility := [], AllowedTools := [], Metadata := none }
          let props :=
            match asStr (metadata.lookup "license".toList) with
            | some v => { props with License := v }
            | none => props
          let props :=
            match asStr (metadata.lookup "compatibility".toList) with
            | some v => { props with Compatibility := v }
            | none => props
          let props :=
            match asStr (metadata.lookup "allowed-tools".toList) with
            | some v => { props with AllowedTools := v }
            | none => props
          let props :=
            match asStrMap (metadata.lookup "metadata".toList) with
            | some v => { props with Metadata := some v }
            | none => props
          .ok props

/-- Go's `ReadProperties(skillDir)`: the properties, or the error returned with a nil pointer. -/
def ReadProperties (F : FileSystem) (Y : YamlLib) (skillDir : Str) :
    Except Err SkillProperties :=
  let skillMD := findSkillMD F skillDir
  if skillMD = [] then .error (.ParseError skillDir ErrSkillMDNotFound)
  else
    match F.ReadFile skillMD with
    | .error err => .error (.ParseError skillMD err)
    | .ok content =>
      let r := parseFrontmatter Y content
      match r.err with
      | some err => .error err
      | none => readFields (r.metadata.getD [])

/-! ## validate.go: the entry point -/

/-- Go's `Validate(skillDir)`: `none` is the nil error, otherwise the `*ValidationErrors`. -/
def Validate (F : FileSystem) (Y : YamlLib) (U : UnicodeLib) (allowed : List Str)
    (skillDir : Str) : Option ValidationErrors :=
  match F.Stat skillDir with
  | .notExist _ => some ⟨[Err.errorf ("path does not exist: ".toList ++ skillDir)]⟩
  | .failed err => some ⟨[err]⟩
  | .info IsDir =>
    if !IsDir then some ⟨[Err.errorf ("not a directory: ".toList ++ skillDir)]⟩
    else
      let skillMD := findSkillMD F skillDir
      if skillMD = [] then some ⟨[Err.errorf "missing required file: SKILL.md".toList]⟩
      else
        match F.ReadFile skillMD with
        | .error err => some ⟨[err]⟩
        | .ok content =>
          let r := parseFrontmatter Y content
          match r.err with
          | some err => some ⟨[err]⟩
          | none =>
            let errs := ValidateMetadata U allowed (r.metadata.getD []) skillDir
            if errs.length = 0 then none else some ⟨errs⟩

/-! ## skill.go: the projection -/

/-- The method `ToMap()` of `*SkillProperties`.  Every assignment adds a key that the map does
not hold yet, so the map is given by the list of its entries. -/
def SkillProperties.ToMap (p : SkillProperties) : RawMetadata :=
  let result : RawMetadata :=
    [("name".toList, .str p.Name), ("description".toList, .str p.Description)]
  let result :=
    if p.License ≠ [] then result ++ [("license".toList, .str p.License)] else result
  let result :=
    if p.Compatibility ≠ [] then result ++ [("compatibility".toList, .str p.Compatibility)]
    else result
  let result :=
    if p.AllowedTools ≠ [] then result ++ [("allowed-tools".toList, .str p.AllowedTools)]
    else result
  let result :=
    if (p.Metadata.getD []).length > 0 then
      result ++ [("metadata".toList, .strMap (p.Metadata.getD []))]
    else result
  result

/-! ## prompt.go -/

/-- The replacement of one rune by Go's `html.EscapeString`: the five runes `&`, `'`, `<`, `>`
and `"` become `&amp;`, `&#39;`, `&lt;`, `&gt;` and `&#34;`. -/
def escapeRune (r : Char) : Str :=
  if r = '&' then "&amp;".toList
  else if r = Char.ofNat 39 then "&#39;".toList
  else if r = '<' then "&lt;".toList
  else if r = '>' then "&gt;".toList
  else if r = Char.ofNat 34 then "&#34;".toList
  else [r]

/-- Go's `html.EscapeString`. -/
def EscapeString : Str → Str
  | [] => []
  | r :: s => escapeRune r ++ EscapeString s

/-- The process in which the package runs, as `filepath.Abs` sees it. -/
structure Process where
  /-- Is `filepath.Abs`, which resolves a relative path against the working directory. -/
  Abs : Str → Except Err Str

/-- The loop of `ToPrompt` over the directories: the lines collected, or the error of the early
return. -/
def toPromptLoop (P : Process) (F : FileSystem) (Y : YamlLib) (lines : List Str) :
    List Str → Except Err (List Str)
  | [] => .ok lines
  | skillDir :: rest =>
    match P.Abs skillDir with
    | .error err => .error err
    | .ok absDir =>
      match ReadProperties F Y absDir with
      | .error err => .error err
      | .ok props =>
        let skillMDPath := findSkillMD F absDir
        let lines := lines ++ ["<skill>".toList]
        let lines := lines ++ ["<name>".toList]
        let lines := lines ++ [EscapeString props.Name]
        let lines := lines ++ ["</name>".toList]
        let lines := lines ++ ["<description>".toList]
        let lines := lines ++ [EscapeString props.Description]
        let lines := lines ++ ["</description>".toList]
        let lines := lines ++ ["<location>".toList]
        let lines := lines ++ [skillMDPath]
        let lines := lines ++ ["</location>".toList]
        let lines := lines ++ ["</skill>".toList]
        toPromptLoop P F Y lines rest

/-- Go's `ToPrompt(skillDirs)`: the two results `(string, error)`. -/
def ToPrompt (P : Process) (F : FileSystem) (Y : YamlLib) (skillDirs : List Str) :
    Str × Option Err :=
  if skillDirs.length = 0 then ("<available_skills>\n</available_skills>".toList, none)
  else
    let lines : List Str := []
    let lines := lines ++ ["<available_skills>".toList]
    match toPromptLoop P F Y lines skillDirs with
    | .error err => ([], some err)
    | .ok lines =>
      let lines := lines ++ ["</available_skills>".toList]
      (Join lines "\n".toList, none)

/-! ## Concrete library data and recognisers, for stating and evaluating the properties -/

/-- The part of `norm.NFKC.String` on the text covered by `unicodeFragment`: `e` followed by the
combining acute accent U+0301 composes to `é`, the double-struck `ℂ` (U+2102) becomes `C`, every
other covered rune is kept. -/
def nfkcFragment : Str → Str
  | 'e' :: '\u0301' :: rest => 'é' :: nfkcFragment rest
  | 'ℂ' :: rest => 'C' :: nfkcFragment rest
  | r :: rest => r :: nfkcFragment rest
  | [] => []

/-- A fragment of the Unicode tables of Go's library, used to evaluate the validator on concrete
names.  It agrees with the library on text made of ASCII characters, `é` (U+00E9), `ℂ` (U+2102),
`技` (U+6280) and the sequence `e`, U+0301; it is not used on other text. -/
def unicodeFragment : UnicodeLib where
  nfkc := nfkcFragment
  toLowerRune := fun r => if 'A' ≤ r ∧ r ≤ 'Z' then Char.ofNat (r.toNat + 32) else r
  isLetter := fun r =>
    decide (('a' ≤ r ∧ r ≤ 'z') ∨ ('A' ≤ r ∧ r ≤ 'Z') ∨ r = 'é' ∨ r = 'ℂ' ∨ r = '技')
  isDigit := fun r => decide ('0' ≤ r ∧ r ≤ '9')

/-- One line `key: text` of a block mapping, as the entry it decodes to. -/
def decodeLine (line : Str) : Option (Str × Value) :=
  match Index line ": ".toList with
  | none => none
  | some m => if m = 0 then none else some (line.take m, .str (line.drop (m + 2)))

/-- The entries of a block mapping given line by line. -/
def decodeLines : List Str → Option RawMetadata
  | [] => some []
  | line :: rest =>
    match decodeLine line, decodeLines rest with
    | some kv, some kvs => some (kv :: kvs)
    | _, _ => none

/-- A fragment of the YAML decoder, used to evaluate the extractor on concrete documents.  It
agrees with the library on the empty document and on block mappings whose lines are `key: text`
with distinct keys and `text` a plain string scalar; it is not used on other text. -/
def yamlFragment : YamlLib where
  Unmarshal := fun text =>
    let lines := (text.splitOn '\n').filter (fun line => line ≠ [])
    if lines = [] then .ok none
    else
      match decodeLines lines with
      | some kvs => .ok (some kvs)
      | none => .error "unsupported document".toList
  Sprint := fun v =>
    match v with
    | .str s => s
    | .int i => (toString i).toList
    | .bool b => (toString b).toList
    | _ => "<nil>".toList

/-- The six field names of the whitelist, as the specification lists them. -/
def whitelist : List Str :=
  ["name".toList, "description".toList, "license".toList, "allowed-tools".toList,
   "metadata".toList, "compatibility".toList]

/-- The name group of the validator's result: `ErrMissingName` alone when the key `name` is
absent, otherwise the errors of the name rules. -/
def nameGroup (U : UnicodeLib) (metadata : RawMetadata) (skillDir : Str) : List Err :=
  match metadata.lookup "name".toList with
  | none => [ErrMissingName]
  | some name => validateName U name.asString.1 skillDir

/-- The description group of the validator's result: `ErrMissingDescription` alone when the key
`description` is absent, otherwise the errors of the description rules. -/
def descriptionGroup (metadata : RawMetadata) : List Err :=
  match metadata.lookup "description".toList with
  | none => [ErrMissingDescription]
  | some desc => validateDescription desc.asString.1

/-- The compatibility group of the validator's result: the compatibility rule, evaluated only
when `compatibility` is present and is a string. -/
def compatibilityGroup (metadata : RawMetadata) : List Err :=
  match metadata.lookup "compatibility".toList with
  | some (.str compat) => validateCompatibility compat
  | _ => []

/-- The names the specification promises to accept: only letters, digits and hyphens, equal to
their lowercase form, no hyphen at either end, no two consecutive hyphens, at most 64
characters. -/
def acceptableName (U : UnicodeLib) (name : Str) : Prop :=
  (∀ r ∈ name, U.isLetter r = true ∨ U.isDigit r = true ∨ r = '-') ∧
    ToLower U name = name ∧ ¬ "-".toList <+: name ∧ ¬ "-".toList <:+ name ∧
    ¬ "--".toList <:+: name ∧ runeCount name ≤ 64

instance (U : UnicodeLib) (name : Str) : Decidable (acceptableName U name) := by
  unfold acceptableName
  infer_instance

/-- An error of the field-whitelist check, recognised by the start of its message. -/
def isWhitelistError (e : Err) : Bool :=
  HasPrefix e.Error "unexpected fields in frontmatter: ".toList

/-- A name/directory mismatch error, recognised by the start of its message. -/
def isMismatchError (e : Err) : Bool :=
  HasPrefix e.Error "directory name '".toList

/-- A length error of the description rule, recognised by the start of its message. -/
def isDescriptionLengthError (e : Err) : Bool :=
  HasPrefix e.Error "description exceeds ".toList

/-- A plain scalar as the decoder reads it: an integer when it is made of decimal digits, a
string otherwise. -/
def decodeScalar (text : Str) : Value :=
  if text ≠ [] ∧ text.all Char.isDigit = true then
    .int (Int.ofNat (text.foldl (fun n r => 10 * n + (r.toNat - 48)) 0))
  else .str text

/-- One line `key: scalar` of a block mapping, as the entry it decodes to. -/
def decodeEntry (line : Str) : Option (Str × Value) :=
  match Index line ": ".toList with
  | none => none
  | some m => if m = 0 then none else some (line.take m, decodeScalar (line.drop (m + 2)))

/-- The lines of a block mapping with one level of nesting, read from the last line to the
first: the entries of the nested mapping under way, and the entries of the mapping. -/
def decodeBlock : List Str → Option (List (Str × Value) × RawMetadata)
  | [] => some ([], [])
  | line :: rest =>
    match decodeBlock rest with
    | none => none
    | some (nested, entries) =>
      if HasPrefix line "  ".toList then
        match decodeEntry (line.drop 2) with
        | some kv => some (kv :: nested, entries)
        | none => none
      else if HasSuffix line ":".toList then
        if nested.isEmpty then none else some ([], (line.dropLast, .map nested) :: entries)
      else if nested.isEmpty then
        match decodeEntry line with
        | some kv => some ([], kv :: entries)
        | none => none
      else none

/-- A second fragment of the YAML decoder, with integers and one level of nesting.  It agrees
with the library on the empty document and on block mappings whose lines are `key: scalar`, or
`key:` followed by lines `  key: scalar` indented by two blanks, with distinct keys and every
scalar a plain string or a decimal integer without sign and leading zero; it is not used on
other text. -/
def yamlBlockFragment : YamlLib where
  Unmarshal := fun text =>
    let lines := (text.splitOn '\n').filter (fun line => line ≠ [])
    if lines = [] then .ok none
    else
      match decodeBlock lines with
      | some (nested, entries) =>
        if nested.isEmpty then .ok (some entries) else .error "unsupported document".toList
      | none => .error "unsupported document".toList
  Sprint := yamlFragment.Sprint

/-- The number of positions of `s` at which `sep` occurs. -/
def occurrences (sep s : Str) : Nat := (s.tails.filter (fun t => sep.isPrefixOf t)).length

/-- The metadata-stringification step of the extractor: when `metadata` is itself a mapping,
each of its values is replaced by its textual representation. -/
def stringifyMetadata (Y : YamlLib) (metadata : RawMetadata) : RawMetadata :=
  match metadata.lookup "metadata".toList with
  | some (.map metaMap) =>
    mapSet metadata "metadata".toList (.strMap (metaMap.map (fun kv => (kv.1, Y.Sprint kv.2))))
  | _ => metadata

/-- A text without white space at its start and at its end. -/
def noSurroundingSpace (s : Str) : Prop :=
  (∀ r, s.head? = some r → IsSpace r = false) ∧ (∀ r, s.getLast? = some r → IsSpace r = false)

/-- The entries of a small file system: a path with `none` is a directory, a path with a text
is a file of that content. -/
def sampleEntries : List (Str × Option Str) :=
  [("/skills/valid-skill".toList, none),
   ("/skills/valid-skill/SKILL.md".toList,
     some "---\nname: valid-skill\ndescription: A valid test skill\n---\n# Valid Skill\n".toList),
   ("/skills/all-fields".toList, none),
   ("/skills/all-fields/skill.md".toList,
     some ("---\nname: all-fields\ndescription: Every optional field\nlicense: MIT\n" ++
       "compatibility: Requires Python 3.11+\nallowed-tools: Bash(git:*) Bash(jq:*)\n" ++
       "---\nBody\n").toList),
   ("/skills/with-metadata".toList, none),
   ("/skills/with-metadata/SKILL.md".toList,
     some ("---\nname: with-metadata\ndescription: Client data\nlicense: 7\n" ++
       "metadata:\n  author: Test Author\n  version: 2\n---\nBody\n").toList),
   ("/skills/broken".toList, none),
   ("/skills/broken/SKILL.md".toList, some "---\nname: broken\n".toList),
   ("/skills/notes.txt".toList, some "notes".toList)]

/-- The file system that holds `sampleEntries` and nothing else. -/
def sampleFiles : FileSystem where
  Stat := fun path =>
    match sampleEntries.lookup path with
    | none => .notExist (.external ("stat ".toList ++ path ++ ": no such file or directory".toList))
    | some none => .info true
    | some (some _) => .info false
  ReadFile := fun path =>
    match sampleEntries.lookup path with
    | some (some content) => .ok content
    | some none => .error (.external ("read ".toList ++ path ++ ": is a directory".toList))
    | none => .error (.external ("open ".toList ++ path ++ ": no such file or directory".toList))
  Join := fun dir name => dir ++ "/".toList ++ name

/-- The file system that holds the given entries and nothing else: a path with `none` is a
directory, a path with a text is a file of that content. -/
def fileSystemOf (entries : List (Str × Option Str)) : FileSystem where
  Stat := fun path =>
    match entries.lookup path with
    | none => .notExist (.external ("stat ".toList ++ path ++ ": no such file or directory".toList))
    | some none => .info true
    | some (some _) => .info false
  ReadFile := fun path =>
    match entries.lookup path with
    | some (some content) => .ok content
    | some none => .error (.external ("read ".toList ++ path ++ ": is a directory".toList))
    | none => .error (.external ("open ".toList ++ path ++ ": no such file or directory".toList))
  Join := fun dir name => dir ++ "/".toList ++ name

/-- The entries of the file system used to evaluate the prompt renderer; one of the directories
is named `<skill>`, the directory `skill>` lies in a directory named `<`, so that its path holds
`</skill>`, and one directory is named `a<b`. -/
def promptEntries : List (Str × Option Str) :=
  [("/skills/valid-skill".toList, none),
   ("/skills/valid-skill/SKILL.md".toList,
     some "---\nname: valid-skill\ndescription: A valid test skill\n---\n# Valid Skill\n".toList),
   ("/skills/special-chars".toList, none),
   ("/skills/special-chars/SKILL.md".toList,
     some ("---\nname: special-chars\ndescription: Use <foo> & <bar> tags\n---\nBody\n").toList),
   ("/skills/<skill>".toList, none),
   ("/skills/<skill>/SKILL.md".toList,
     some "---\nname: tagged\ndescription: A skill in a directory named like a tag\n---\n".toList),
   ("/skills/<".toList, none),
   ("/skills/</skill>".toList, none),
   ("/skills/</skill>/SKILL.md".toList,
     some "---\nname: closed\ndescription: A skill in a path that holds a closing tag\n---\n".toList),
   ("/skills/a<b".toList, none),
   ("/skills/a<b/SKILL.md".toList,
     some "---\nname: angle\ndescription: A skill in a directory named with a rune\n---\n".toList)]

/-- The file system that holds `promptEntries`. -/
def promptFiles : FileSystem := fileSystemOf promptEntries

/-- A process whose working directory is `/skills`: `filepath.Abs` on paths that are clean. -/
def sampleProcess : Process where
  Abs := fun path => if HasPrefix path "/".toList then .ok path else .ok ("/skills/".toList ++ path)

/-- The eleven lines that the renderer writes for one skill. -/
def skillLines (name description location : Str) : List Str :=
  ["<skill>".toList, "<name>".toList, EscapeString name, "</name>".toList,
   "<description>".toList, EscapeString description, "</description>".toList,
   "<location>".toList, location, "</location>".toList, "</skill>".toList]

/-- The lines of the skills read, in order: `read` holds, for each directory, its absolute path
and its properties. -/
def skillBlocks (F : FileSystem) : List (Str × SkillProperties) → List Str
  | [] => []
  | (absDir, props) :: rest =>
    skillLines props.Name props.Description (findSkillMD F absDir) ++ skillBlocks F rest

/-- A directory that is read successfully: its absolute path and its properties. -/
def readsAs (P : Process) (F : FileSystem) (Y : YamlLib) (skillDir : Str)
    (r : Str × SkillProperties) : Prop :=
  P.Abs skillDir = .ok r.1 ∧ ReadProperties F Y r.1 = .ok r.2

/-- The entities that `html.EscapeString` writes. -/
def entities : List Str :=
  ["&amp;".toList, "&#39;".toList, "&lt;".toList, "&gt;".toList, "&#34;".toList]

/-- No occurrence of `p` can begin within `w`, whatever follows `w`: at no position of `w`
does the text from there on agree with `p` as far as it goes. -/
def neverStarts (p w : Str) : Bool :=
  w.tails.all (fun t => t.isEmpty || !((t.take p.length).isPrefixOf p))

/-! ## Facts about the string library -/

theorem hasPrefix_iff (s pre : Str) : HasPrefix s pre = true ↔ pre <+: s := by
  simp [HasPrefix]

theorem hasSuffix_iff (s suf : Str) : HasSuffix s suf = true ↔ suf <:+ s := by
  simp [HasSuffix]

theorem index_eq_none_iff (sep s : Str) : Index s sep = none ↔ ¬ sep <:+: s := by
  induction s with
  | nil =>
    by_cases h : sep = []
    · simp [Index, h]
    · simp [Index, h, List.infix_nil]
  | cons c s ih =>
    unfold Index
    by_cases hp : HasPrefix (c :: s) sep = true
    · have hpre : sep <+: c :: s := (hasPrefix_iff _ _).1 hp
      simp [hp, hpre.isInfix]
    · have hpre : ¬ sep <+: c :: s := fun h => hp ((hasPrefix_iff _ _).2 h)
      simp only [hp, Bool.false_eq_true, if_false, Option.map_eq_none', ih]
      rw [List.infix_cons_iff]
      tauto

theorem contains_iff (s sub : Str) : Contains s sub = true ↔ sub <:+: s := by
  unfold Contains
  rw [← not_iff_not, ← index_eq_none_iff]
  cases Index s sub <;> simp

theorem join_infix (sep : Str) : ∀ (xs : List Str) (k : Str), k ∈ xs → k <:+: Join xs sep
  | [], k, h => by simp at h
  | [a], k, h => by
    simp only [List.mem_singleton] at h
    subst h
    exact List.infix_refl _
  | a :: b :: rest, k, h => by
    rcases List.mem_cons.1 h with h | h
    · subst h
      exact ⟨[], sep ++ Join (b :: rest) sep, by simp [Join]⟩
    · obtain ⟨p, q, hpq⟩ := join_infix sep (b :: rest) k h
      exact ⟨a ++ sep ++ p, q, by simp [Join, ← hpq]⟩

theorem allowedFieldsAt_iff (key : Str) : allowedFieldsAt key = true ↔ key ∈ whitelist := by
  have gen : ∀ (l : List (Str × Bool)), (∀ kv ∈ l, kv.2 = true) →
      ((l.lookup key).getD false = true ↔ key ∈ l.map Prod.fst) := by
    intro l
    induction l with
    | nil => simp
    | cons kv l ih =>
      intro hl
      obtain ⟨k, v⟩ := kv
      have hv : v = true := hl (k, v) (List.mem_cons_self _ _)
      have ih2 := ih (fun kv h => hl kv (List.mem_cons_of_mem _ h))
      by_cases hk : key = k
      · subst hk
        simp [List.lookup, hv]
      · have hk2 : (key == k) = false := by simpa using hk
        simp only [List.lookup, hk2, List.map_cons, List.mem_cons, hk, false_or]
        exact ih2
  have := gen allowedFields (by decide)
  simpa [allowedFieldsAt, whitelist, allowedFields] using this

theorem mem_extraFields (metadata : RawMetadata) (key : Str) :
    key ∈ extraFields metadata ↔ key ∈ metadata.map Prod.fst ∧ key ∉ whitelist := by
  unfold extraFields
  rw [List.mem_filter, ← allowedFieldsAt_iff]
  cases allowedFieldsAt key <;> simp only [Bool.not_false, Bool.not_true, Bool.false_eq_true,
    not_false_eq_true, not_true_eq_false]

/-! ## Facts about the validator -/

/-- Six guarded appends to an accumulator give the concatenation of the six guarded lists. -/
theorem guarded_appends (c1 c2 c3 c4 c5 c6 c7 : Prop) [Decidable c1] [Decidable c2]
    [Decidable c3] [Decidable c4] [Decidable c5] [Decidable c6] [Decidable c7]
    (e1 e2 e3 e4 e5 e6 : Err) :
    (let errs : List Err := []
     let errs := if c1 then errs ++ [e1] else errs
     let errs := if c2 then errs ++ [e2] else errs
     let errs := if c3 then errs ++ [e3] else errs
     let errs := if c4 then errs ++ [e4] else errs
     let errs := if c5 then errs ++ [e5] else errs
     let errs := if c6 then (if c7 then errs ++ [e6] else errs) else errs
     errs) =
    (if c1 then [e1] else []) ++ ((if c2 then [e2] else []) ++ ((if c3 then [e3] else []) ++
      ((if c4 then [e4] else []) ++ ((if c5 then [e5] else []) ++
        (if c6 ∧ c7 then [e6] else []))))) := by
  by_cases h1 : c1 <;> by_cases h2 : c2 <;> by_cases h3 : c3 <;> by_cases h4 : c4 <;>
    by_cases h5 : c5 <;> by_cases h6 : c6 <;> by_cases h7 : c7 <;> simp [h1, h2, h3, h4, h5, h6, h7]

/-- The value of `validateName` as one concatenation of its six independent checks. -/
theorem validateName_eq (U : UnicodeLib) (name skillDir : Str) :
    validateName U name skillDir =
      if name = [] then [ErrNameEmpty]
      else
        (if len (U.nfkc (TrimSpace name)) > MaxSkillNameLength then
          [Err.errorf ("skill name '".toList ++ U.nfkc (TrimSpace name) ++ "' exceeds ".toList ++
            fmtInt MaxSkillNameLength ++ " character limit (".toList ++
            fmtInt (len (U.nfkc (TrimSpace name))) ++ " chars)".toList)]
         else []) ++
        ((if U.nfkc (TrimSpace name) ≠ ToLower U (U.nfkc (TrimSpace name)) then
          [Err.errorf ("skill name '".toList ++ U.nfkc (TrimSpace name) ++
            "' must be lowercase".toList)]
         else []) ++
        ((if HasPrefix (U.nfkc (TrimSpace name)) "-".toList ||
            HasSuffix (U.nfkc (TrimSpace name)) "-".toList then [ErrNameLeadingHyphen]
         else []) ++
        ((if Contains (U.nfkc (TrimSpace name)) "--".toList then [ErrNameConsecutiveHyphen]
         else []) ++
        ((if (U.nfkc (TrimSpace name)).any
              (fun r => !U.isLetter r && !U.isDigit r && r != '-') then
          [Err.errorf ("skill name '".toList ++ U.nfkc (TrimSpace name) ++
            "' contains invalid characters. Only letters, digits, and hyphens are allowed".toList)]
         else []) ++
        (if skillDir ≠ [] ∧ U.nfkc (Base skillDir) ≠ U.nfkc (TrimSpace name) then
          [Err.errorf ("directory name '".toList ++ Base skillDir ++
            "' must match skill name '".toList ++ U.nfkc (TrimSpace name) ++ "'".toList)]
         else []))))) := by
  unfold validateName
  by_cases h0 : name = []
  · simp [h0]
  · rw [if_neg h0, if_neg h0]
    exact guarded_appends _ _ _ _ _ _ _ _ _ _ _ _ _

theorem validateMetadata_append (U : UnicodeLib) (allowed : List Str) (metadata : RawMetadata)
    (skillDir : Str) :
    ValidateMetadata U allowed metadata skillDir =
      validateMetadataFields allowed metadata ++ (nameGroup U metadata skillDir ++
        (descriptionGroup metadata ++ compatibilityGroup metadata)) := by
  unfold ValidateMetadata nameGroup descriptionGroup compatibilityGroup
  simp only [List.nil_append]
  split <;> split <;> split <;> simp

theorem validateName_mem_cases {U : UnicodeLib} {name skillDir : Str} {e : Err}
    (h : e ∈ validateName U name skillDir) :
    (∃ s, e = .sentinel s) ∨ (∃ t, e = .errorf ("skill name '".toList ++ t)) ∨
      (name ≠ [] ∧ skillDir ≠ [] ∧ U.nfkc (Base skillDir) ≠ U.nfkc (TrimSpace name) ∧
        e = .errorf ("directory name '".toList ++ Base skillDir ++
          "' must match skill name '".toList ++ U.nfkc (TrimSpace name) ++ "'".toList)) := by
  rw [validateName_eq] at h
  by_cases h0 : name = []
  · rw [if_pos h0] at h
    exact Or.inl ⟨_, List.mem_singleton.1 h⟩
  · rw [if_neg h0] at h
    simp only [List.mem_append] at h
    rcases h with h | h | h | h | h | h
    · split_ifs at h
      · exact Or.inr (Or.inl ⟨_, by rw [List.mem_singleton.1 h]; simp only [List.append_assoc]; rfl⟩)
      · simp at h
    · split_ifs at h
      · exact Or.inr (Or.inl ⟨_, by rw [List.mem_singleton.1 h]; simp only [List.append_assoc]; rfl⟩)
      · simp at h
    · split_ifs at h
      · exact Or.inl ⟨_, List.mem_singleton.1 h⟩
      · simp at h
    · split_ifs at h
      · exact Or.inl ⟨_, List.mem_singleton.1 h⟩
      · simp at h
    · split_ifs at h
      · exact Or.inr (Or.inl ⟨_, by rw [List.mem_singleton.1 h]; simp only [List.append_assoc]; rfl⟩)
      · simp at h
    · split_ifs at h with hd
      · exact Or.inr (Or.inr ⟨h0, hd.1, hd.2, List.mem_singleton.1 h⟩)
      · simp at h

theorem validateDescription_mem_cases {description : Str} {e : Err}
    (h : e ∈ validateDescription description) :
    e = ErrDescriptionEmpty ∨
      (description ≠ [] ∧ len description > MaxDescriptionLength ∧
        e = .errorf ("description exceeds ".toList ++ fmtInt MaxDescriptionLength ++
          " character limit (".toList ++ fmtInt (len description) ++ " chars)".toList)) := by
  unfold validateDescription at h
  by_cases h0 : description = []
  · simp [h0] at h
    exact Or.inl h
  · by_cases h1 : len description > MaxDescriptionLength
    · simp only [h0, h1, if_true, if_false, List.nil_append, List.mem_singleton] at h
      exact Or.inr ⟨h0, h1, h⟩
    · simp [h0, h1] at h

theorem validateCompatibility_mem_cases {compatibility : Str} {e : Err}
    (h : e ∈ validateCompatibility compatibility) :
    ∃ t, e = .errorf ("compatibility exceeds ".toList ++ t) := by
  unfold validateCompatibility at h
  by_cases h1 : len compatibility > MaxCompatibilityLength
  · simp only [h1, if_true, List.nil_append, List.mem_singleton] at h
    exact ⟨_, by rw [h]; simp only [List.append_assoc]; rfl⟩
  · simp [h1] at h

theorem isWhitelistError_sentinel (s : Sentinel) : isWhitelistError (.sentinel s) = false := by
  cases s <;> rfl

theorem isMismatchError_sentinel (s : Sentinel) : isMismatchError (.sentinel s) = false := by
  cases s <;> rfl

theorem not_whitelist_of_nameGroup {U : UnicodeLib} {metadata : RawMetadata} {skillDir : Str}
    {e : Err} (h : e ∈ nameGroup U metadata skillDir) : isWhitelistError e = false := by
  unfold nameGroup at h
  split at h
  · rw [List.mem_singleton.1 h]; rfl
  · rcases validateName_mem_cases h with ⟨s, rfl⟩ | ⟨t, rfl⟩ | ⟨_, _, _, rfl⟩
    · exact isWhitelistError_sentinel s
    · rfl
    · rfl

theorem not_whitelist_of_descriptionGroup {metadata : RawMetadata} {e : Err}
    (h : e ∈ descriptionGroup metadata) : isWhitelistError e = false := by
  unfold descriptionGroup at h
  split at h
  · rw [List.mem_singleton.1 h]; rfl
  · rcases validateDescription_mem_cases h with rfl | ⟨_, _, rfl⟩ <;> rfl

theorem not_whitelist_of_compatibilityGroup {metadata : RawMetadata} {e : Err}
    (h : e ∈ compatibilityGroup metadata) : isWhitelistError e = false := by
  unfold compatibilityGroup at h
  split at h
  · obtain ⟨t, rfl⟩ := validateCompatibility_mem_cases h
    rfl
  · simp at h

theorem validateMetadataFields_eq (allowed : List Str) (metadata : RawMetadata) :
    validateMetadataFields allowed metadata =
      if extraFields metadata = [] then []
      else [Err.errorf ("unexpected fields in frontmatter: ".toList ++
        Join (extraFields metadata) ", ".toList ++ ". Only ".toList ++ fmtStrings allowed ++
        " are allowed".toList)] := by
  unfold validateMetadataFields
  by_cases h : extraFields metadata = []
  · simp [h]
  · have : 0 < (extraFields metadata).length := List.length_pos.2 h
    simp [h, this]

theorem extraFields_eq_nil_iff (metadata : RawMetadata) :
    extraFields metadata = [] ↔ ¬ ∃ key ∈ metadata.map Prod.fst, key ∉ whitelist := by
  rw [List.eq_nil_iff_forall_not_mem]
  constructor
  · rintro h ⟨key, hk, hw⟩
    exact h key ((mem_extraFields _ _).2 ⟨hk, hw⟩)
  · intro h key hk
    exact h ⟨key, ((mem_extraFields _ _).1 hk).1, ((mem_extraFields _ _).1 hk).2⟩

theorem isWhitelistError_fields (allowed : List Str) (extra : List Str) :
    isWhitelistError (Err.errorf ("unexpected fields in frontmatter: ".toList ++
      Join extra ", ".toList ++ ". Only ".toList ++ fmtStrings allowed ++
      " are allowed".toList)) = true := by
  unfold isWhitelistError
  rw [hasPrefix_iff]
  simp only [Err.Error, List.append_assoc]
  exact List.prefix_append _ _

theorem validateName_empty (U : UnicodeLib) (skillDir : Str) :
    validateName U [] skillDir = [ErrNameEmpty] := by
  rw [validateName_eq, if_pos rfl]

theorem validateDescription_empty : validateDescription [] = [ErrDescriptionEmpty] := by
  unfold validateDescription
  rw [if_pos rfl]
  rfl

theorem asString_of_not_str (v : Value) (h : ∀ s, v ≠ .str s) : v.asString = ([], false) := by
  cases v with
  | str s => exact absurd rfl (h s)
  | _ => rfl

theorem lookup_cons_self (m : RawMetadata) (key : Str) (w : Value) :
    List.lookup key ((key, w) :: m) = some w := by
  simp [List.lookup]

theorem lookup_cons_ne (m : RawMetadata) (key k : Str) (w : Value) (h : key ≠ k) :
    List.lookup key ((k, w) :: m) = List.lookup key m := by
  have hk : (key == k) = false := by simpa using h
  simp [List.lookup, hk]

theorem mapSet_cons (kv : Str × Value) (m : RawMetadata) (key : Str) (v : Value) :
    mapSet (kv :: m) key v = (if kv.1 = key then (key, v) else kv) :: mapSet m key v := rfl

theorem lookup_mapSet_self (m : RawMetadata) (key : Str) (v v0 : Value)
    (h : m.lookup key = some v0) : (mapSet m key v).lookup key = some v := by
  induction m with
  | nil => simp at h
  | cons kv m ih =>
    obtain ⟨k, w⟩ := kv
    rw [mapSet_cons]
    by_cases hk : k = key
    · rw [if_pos hk, lookup_cons_self]
    · have hk2 : key ≠ k := fun h => hk h.symm
      rw [if_neg hk, lookup_cons_ne _ _ _ _ hk2]
      rw [lookup_cons_ne _ _ _ _ hk2] at h
      exact ih h

theorem lookup_mapSet_ne (m : RawMetadata) (key other : Str) (v : Value) (h : other ≠ key) :
    (mapSet m key v).lookup other = m.lookup other := by
  induction m with
  | nil => rfl
  | cons kv m ih =>
    obtain ⟨k, w⟩ := kv
    rw [mapSet_cons]
    by_cases hk : k = key
    · have hk2 : other ≠ k := fun h2 => h (h2.trans hk)
      rw [if_pos hk, lookup_cons_ne _ _ _ _ h, lookup_cons_ne _ _ _ _ hk2]
      exact ih
    · rw [if_neg hk]
      by_cases ho : other = k
      · subst ho
        rw [lookup_cons_self, lookup_cons_self]
      · rw [lookup_cons_ne _ _ _ _ ho, lookup_cons_ne _ _ _ _ ho]
        exact ih

theorem keys_mapSet (m : RawMetadata) (key : Str) (v : Value) :
    (mapSet m key v).map Prod.fst = m.map Prod.fst := by
  induction m with
  | nil => rfl
  | cons kv m ih =>
    rw [mapSet_cons, List.map_cons, List.map_cons, ih]
    by_cases hk : kv.1 = key
    · rw [if_pos hk, hk]
    · rw [if_neg hk]

theorem len_replicate (n : Nat) (r : Char) : len (List.replicate n r) = n * r.utf8Size := by
  induction n with
  | zero => simp [len]
  | succ n ih =>
    have : len (r :: List.replicate n r) = r.utf8Size + len (List.replicate n r) := by
      simp [len]
    rw [List.replicate_succ, this, ih]
    ring

theorem validateMetadataFields_mapSet (allowed : List Str) (m : RawMetadata) (key : Str)
    (v : Value) :
    validateMetadataFields allowed (mapSet m key v) = validateMetadataFields allowed m := by
  unfold validateMetadataFields extraFields
  rw [keys_mapSet]

/-- The description rule reports a length error exactly when the byte length exceeds the
limit. -/
theorem validateDescription_length_error_iff (description : Str) (h : description ≠ []) :
    (∃ e ∈ validateDescription description, isDescriptionLengthError e = true) ↔
      len description > MaxDescriptionLength := by
  constructor
  · rintro ⟨e, he, hl⟩
    rcases validateDescription_mem_cases he with rfl | ⟨_, hlen, _⟩
    · exact absurd hl (by decide)
    · exact hlen
  · intro hlen
    refine ⟨Err.errorf ("description exceeds ".toList ++ fmtInt MaxDescriptionLength ++
      " character limit (".toList ++ fmtInt (len description) ++ " chars)".toList), ?_, ?_⟩
    · unfold validateDescription
      rw [if_neg h, if_pos hlen]
      exact List.mem_singleton.2 rfl
    · unfold isDescriptionLengthError
      rw [hasPrefix_iff]
      simp only [Err.Error, List.append_assoc]
      exact List.prefix_append _ _

/-! ## Facts about the extractor -/

theorem len_cons (r : Char) (s : Str) : len (r :: s) = r.utf8Size + len s := by
  simp [len]

/-- The split of a document that starts with the delimiter: an empty first segment, then the
rest cut at its first delimiter, if it has one. -/
theorem splitN_after_delimiter (rest : Str) :
    SplitN ("---".toList ++ rest) "---".toList 3 =
      match Index rest "---".toList with
      | none => [[], rest]
      | some m => [[], rest.take m, rest.drop (m + 3)] := by
  have hlen : ¬ 3 > len ("---".toList ++ rest) + 1 := by
    have : len ("---".toList ++ rest) = 3 + len rest := by
      show len ('-' :: '-' :: '-' :: rest) = 3 + len rest
      rw [len_cons, len_cons, len_cons]
      have : ('-').utf8Size = 1 := by decide
      omega
    omega
  have hidx : Index ("---".toList ++ rest) "---".toList = some 0 := by
    show Index ('-' :: '-' :: '-' :: rest) "---".toList = some 0
    unfold Index
    have : HasPrefix ('-' :: '-' :: '-' :: rest) "---".toList = true := by
      rw [hasPrefix_iff]
      exact ⟨rest, rfl⟩
    rw [if_pos this]
  unfold SplitN
  rw [if_neg (by decide), if_neg (by decide)]
  simp only [hlen, if_false]
  show splitLoop "---".toList 2 ("---".toList ++ rest) = _
  unfold splitLoop
  simp only [hidx]
  show [] :: splitLoop "---".toList 1 rest = _
  unfold splitLoop
  cases Index rest "---".toList with
  | none => rfl
  | some m => rfl

theorem parseFrontmatter_after_delimiter (Y : YamlLib) (content : Str)
    (h : "---".toList <+: content) :
    parseFrontmatter Y content =
      if (SplitN content "---".toList 3).length < 3 then
        ⟨none, [], some (.ParseError [] ErrUnclosedFrontmatter)⟩
      else
        match Y.Unmarshal ((SplitN content "---".toList 3).getD 1 []) with
        | .error e =>
          ⟨none, [], some (.ParseError []
            (.wrapf (ErrInvalidYAML.Error ++ ": ".toList ++ e) ErrInvalidYAML))⟩
        | .ok none => ⟨none, [], some (.ParseError [] ErrFrontmatterNotMapping)⟩
        | .ok (some metadata) =>
          ⟨some (match metadata.lookup "metadata".toList with
            | some (.map metaMap) =>
              mapSet metadata "metadata".toList
                (.strMap (metaMap.map (fun kv => (kv.1, Y.Sprint kv.2))))
            | _ => metadata),
           TrimSpace ((SplitN content "---".toList 3).getD 2 []), none⟩ := by
  have hp : HasPrefix content "---".toList = true := (hasPrefix_iff _ _).2 h
  unfold parseFrontmatter
  simp only [hp, Bool.not_true, Bool.false_eq_true, if_false]

/-! ## The claims -/

/-- C1: the field-whitelist check yields exactly one error when some top-level key lies outside
the six-field whitelist and none otherwise, the same holds for the whitelist errors in the result
of `ValidateMetadata`, and the message of that one error contains every offending key. -/
theorem whitelist_violation_reported_once (U : UnicodeLib) (allowed : List Str)
    (metadata : RawMetadata) (skillDir : Str) :
    (validateMetadataFields allowed metadata).length =
        (if ∃ key ∈ metadata.map Prod.fst, key ∉ whitelist then 1 else 0) ∧
      (ValidateMetadata U allowed metadata skillDir).countP isWhitelistError =
        (if ∃ key ∈ metadata.map Prod.fst, key ∉ whitelist then 1 else 0) ∧
      validateMetadataFields allowed metadata <+: ValidateMetadata U allowed metadata skillDir ∧
      (∀ e ∈ validateMetadataFields allowed metadata, isWhitelistError e = true ∧
        ∀ key ∈ metadata.map Prod.fst, key ∉ whitelist → key <:+: e.Error) := by
  have hrest : (nameGroup U metadata skillDir ++
      (descriptionGroup metadata ++ compatibilityGroup metadata)).countP isWhitelistError = 0 := by
    rw [List.countP_eq_zero]
    intro e he
    rcases List.mem_append.1 he with he | he
    · simp [not_whitelist_of_nameGroup he]
    · rcases List.mem_append.1 he with he | he
      · simp [not_whitelist_of_descriptionGroup he]
      · simp [not_whitelist_of_compatibilityGroup he]
  rw [validateMetadata_append, List.countP_append, hrest, validateMetadataFields_eq]
  by_cases hex : ∃ key ∈ metadata.map Prod.fst, key ∉ whitelist
  · have hne : extraFields metadata ≠ [] := fun h => (extraFields_eq_nil_iff _).1 h hex
    rw [if_neg hne, if_pos hex]
    refine ⟨rfl, ?_, List.prefix_append _ _, ?_⟩
    · rw [List.countP_cons_of_pos]
      · rfl
      · exact isWhitelistError_fields _ _
    · intro e he
      rw [List.mem_singleton.1 he]
      refine ⟨isWhitelistError_fields _ _, fun key hk hw => ?_⟩
      obtain ⟨p, q, hpq⟩ := join_infix ", ".toList (extraFields metadata) key
        ((mem_extraFields _ _).2 ⟨hk, hw⟩)
      exact ⟨"unexpected fields in frontmatter: ".toList ++ p,
        q ++ (". Only ".toList ++ fmtStrings allowed ++ " are allowed".toList), by
          simp only [Err.Error, ← hpq, List.append_assoc]⟩
  · have hnil : extraFields metadata = [] := (extraFields_eq_nil_iff _).2 hex
    rw [if_pos hnil, if_neg hex]
    refine ⟨rfl, rfl, List.nil_prefix, ?_⟩
    intro e he
    simp at he

/-- C2, as stated, fails: the empty name, the one-letter name `ℂ` (a letter without lowercase
form whose NFKC form is the capital `C`) and a name of 22 ideographs (66 bytes) each satisfy
every condition of the claim, and `validateName` without directory context reports an error for
each. -/
theorem validateName_rejects_acceptable_names :
    (acceptableName unicodeFragment [] ∧ validateName unicodeFragment [] [] = [ErrNameEmpty]) ∧
    (acceptableName unicodeFragment ['ℂ'] ∧
      validateName unicodeFragment ['ℂ'] [] =
        [Err.errorf "skill name 'C' must be lowercase".toList]) ∧
    (acceptableName unicodeFragment (List.replicate 22 '技') ∧
      validateName unicodeFragment (List.replicate 22 '技') [] =
        [Err.errorf ("skill name '".toList ++ List.replicate 22 '技' ++
          "' exceeds 64 character limit (66 chars)".toList)]) := by
  refine ⟨⟨by decide, by decide⟩, ⟨by decide, by decide⟩, ⟨by decide, by decide⟩⟩

theorem isSpace_toNat (r : Char) (h : IsSpace r = true) :
    r.toNat ∈ [9, 10, 11, 12, 13, 0x20, 0x85, 0xA0, 0x1680, 0x2000, 0x2001, 0x2002, 0x2003,
      0x2004, 0x2005, 0x2006, 0x2007, 0x2008, 0x2009, 0x200A, 0x2028, 0x2029, 0x202F, 0x205F,
      0x3000] := by
  unfold IsSpace at h
  simp only [Bool.or_eq_true, Bool.and_eq_true, decide_eq_true_eq] at h
  simp only [List.mem_cons, List.mem_singleton]
  omega

/-- In the fragment of the Unicode tables, as in the tables themselves, no white-space rune is a
letter or a digit. -/
theorem unicodeFragment_space (r : Char) (h : IsSpace r = true) :
    unicodeFragment.isLetter r = false ∧ unicodeFragment.isDigit r = false := by
  have hr : Char.ofNat r.toNat = r := Char.ofNat_toNat r
  have h2 := isSpace_toNat r h
  simp only [List.mem_cons, List.mem_singleton, List.mem_nil_iff, or_false] at h2
  rcases h2 with h2 | h2 | h2 | h2 | h2 | h2 | h2 | h2 | h2 | h2 | h2 | h2 | h2 | h2 | h2 | h2 |
    h2 | h2 | h2 | h2 | h2 | h2 | h2 | h2 | h2 <;>
  · rw [h2] at hr
    subst hr
    decide

/-- A text without white space is left as it is by `TrimSpace`. -/
theorem trimSpace_of_no_space (s : Str) (h : ∀ r ∈ s, IsSpace r = false) : TrimSpace s = s := by
  unfold TrimSpace
  have h1 : s.dropWhile IsSpace = s := by
    cases s with
    | nil => rfl
    | cons c t =>
      rw [List.dropWhile_cons_of_neg]
      rw [h c (List.mem_cons_self _ _)]
      exact Bool.false_ne_true
  rw [h1, List.rdropWhile_eq_self_iff]
  intro hne
  rw [h _ (List.getLast_mem hne)]
  exact Bool.false_ne_true

/-- C2 (amended): a non-empty name that meets the conditions of the claim (only letters, digits
and hyphens, equal to its lowercase form, no hyphen at either end, no two consecutive hyphens, at
most 64 characters) and whose NFKC normal form meets them too and is at most 64 bytes long gets
no error from `validateName` without directory context.  The Unicode tables are any in which, as
in Go, no white-space rune is a letter or a digit. -/
theorem validateName_accepts_normalizable_names (U : UnicodeLib)
    (hspace : ∀ r, IsSpace r = true → U.isLetter r = false ∧ U.isDigit r = false)
    (name : Str) (hacc : acceptableName U name) (hne : name ≠ [])
    (hnorm : acceptableName U (U.nfkc name)) (hlen : len (U.nfkc name) ≤ 64) :
    validateName U name [] = [] := by
  have htrim : TrimSpace name = name := by
    apply trimSpace_of_no_space
    intro r hr
    cases hs : IsSpace r with
    | false => rfl
    | true =>
      obtain ⟨hl, hd⟩ := hspace r hs
      rcases hacc.1 r hr with h | h | h
      · rw [hl] at h
        exact absurd h Bool.false_ne_true
      · rw [hd] at h
        exact absurd h Bool.false_ne_true
      · rw [h] at hs
        exact absurd hs (by decide)
  obtain ⟨hchars, hlower, hlead, htrail, hdouble, -⟩ := hnorm
  rw [validateName_eq, if_neg hne, htrim]
  have h1 : ¬ len (U.nfkc name) > MaxSkillNameLength := by
    unfold MaxSkillNameLength
    omega
  have h2 : ¬ U.nfkc name ≠ ToLower U (U.nfkc name) := by
    rw [hlower]
    exact fun h => h rfl
  have h3 : ¬ (HasPrefix (U.nfkc name) "-".toList || HasSuffix (U.nfkc name) "-".toList) =
      true := by
    rw [Bool.or_eq_true, hasPrefix_iff, hasSuffix_iff]
    tauto
  have h4 : ¬ Contains (U.nfkc name) "--".toList = true := by
    rw [contains_iff]
    exact hdouble
  have h5 : ¬ (U.nfkc name).any (fun r => !U.isLetter r && !U.isDigit r && r != '-') =
      true := by
    rw [List.any_eq_true]
    rintro ⟨r, hr, hbad⟩
    rcases hchars r hr with h | h | h <;> simp [h] at hbad
  have h6 : ¬ (([] : Str) ≠ [] ∧ U.nfkc (Base []) ≠ U.nfkc name) :=
    fun h => h.1 rfl
  rw [if_neg h1, if_neg h2, if_neg h3, if_neg h4, if_neg h5, if_neg h6]
  rfl

/-- C2 (amended) at the name `技-skill2`. -/
theorem validateName_accepts_normalizable_names_witness :
    validateName unicodeFragment "技-skill2".toList [] = [] :=
  validateName_accepts_normalizable_names unicodeFragment unicodeFragment_space
    "技-skill2".toList (by decide) (by decide) (by decide) (by decide)

/-- C3, as stated, fails: the name ` abc` (with a leading blank) and the directory `/skills/ abc`
have base name and name of equal NFKC normal form, and `validateName` reports a mismatch, since it
compares the directory with the trimmed name. -/
theorem mismatch_despite_equal_normal_forms :
    unicodeFragment.nfkc (Base "/skills/ abc".toList) = unicodeFragment.nfkc " abc".toList ∧
      validateName unicodeFragment " abc".toList "/skills/ abc".toList =
        [Err.errorf "directory name ' abc' must match skill name 'abc'".toList] ∧
      isMismatchError (Err.errorf "directory name ' abc' must match skill name 'abc'".toList)
        = true := by
  refine ⟨by decide, by decide, by decide⟩

/-- C3 (amended): when the base name of the directory has the same NFKC normal form as the
whitespace-trimmed name, `validateName` reports no name/directory mismatch error, and its result
is the one obtained without directory context. -/
theorem no_mismatch_when_normal_forms_agree (U : UnicodeLib) (name skillDir : Str)
    (h : U.nfkc (Base skillDir) = U.nfkc (TrimSpace name)) :
    (∀ e ∈ validateName U name skillDir, isMismatchError e = false) ∧
      validateName U name skillDir = validateName U name [] := by
  constructor
  · intro e he
    rcases validateName_mem_cases he with ⟨s, rfl⟩ | ⟨t, rfl⟩ | ⟨_, _, hne, _⟩
    · exact isMismatchError_sentinel s
    · rfl
    · exact absurd h hne
  · rw [validateName_eq, validateName_eq]
    have h1 : ¬ (skillDir ≠ [] ∧ U.nfkc (Base skillDir) ≠ U.nfkc (TrimSpace name)) :=
      fun hh => hh.2 h
    have h2 : ¬ (([] : Str) ≠ [] ∧ U.nfkc (Base []) ≠ U.nfkc (TrimSpace name)) :=
      fun hh => hh.1 rfl
    rw [if_neg h1, if_neg h2]

/-- C3 (amended) at the decomposed name `cafe` + U+0301 in the directory `/skills/caf\u00e9`. -/
theorem no_mismatch_when_normal_forms_agree_witness :
    (∀ e ∈ validateName unicodeFragment "cafe\u0301".toList "/skills/caf\u00e9".toList,
        isMismatchError e = false) ∧
      validateName unicodeFragment "cafe\u0301".toList "/skills/caf\u00e9".toList =
        validateName unicodeFragment "cafe\u0301".toList [] :=
  no_mismatch_when_normal_forms_agree unicodeFragment "cafe\u0301".toList
    "/skills/caf\u00e9".toList (by decide)

/-- C6, as stated, fails: for the name `my-skill ` (with a trailing blank) in the directory
`/skills/other` the mismatch message holds the trimmed name, and the name as given does not
occur in it. -/
theorem mismatch_message_lacks_original_name :
    validateName unicodeFragment "my-skill ".toList "/skills/other".toList =
        [Err.errorf "directory name 'other' must match skill name 'my-skill'".toList] ∧
      isMismatchError
        (Err.errorf "directory name 'other' must match skill name 'my-skill'".toList) = true ∧
      ¬ "my-skill ".toList <:+:
        (Err.errorf "directory name 'other' must match skill name 'my-skill'".toList).Error := by
  refine ⟨by decide, by decide, by decide⟩

theorem validateName_with_mismatch (U : UnicodeLib) (name skillDir : Str) (hname : name ≠ [])
    (hdir : skillDir ≠ []) (hmis : U.nfkc (Base skillDir) ≠ U.nfkc (TrimSpace name)) :
    validateName U name skillDir =
      validateName U name [] ++ [Err.errorf ("directory name '".toList ++ Base skillDir ++
        "' must match skill name '".toList ++ U.nfkc (TrimSpace name) ++ "'".toList)] := by
  have h6 : ¬ (([] : Str) ≠ [] ∧ U.nfkc (Base []) ≠ U.nfkc (TrimSpace name)) :=
    fun h => h.1 rfl
  rw [validateName_eq U name skillDir, validateName_eq U name [], if_neg hname, if_neg hname,
    if_pos (show skillDir ≠ [] ∧ U.nfkc (Base skillDir) ≠ U.nfkc (TrimSpace name) from
      ⟨hdir, hmis⟩), if_neg h6]
  simp only [List.append_assoc, List.append_nil]

theorem countP_mismatch_without_directory (U : UnicodeLib) (name : Str) :
    (validateName U name []).countP isMismatchError = 0 := by
  rw [List.countP_eq_zero]
  intro e he
  rcases validateName_mem_cases he with ⟨s, rfl⟩ | ⟨t, rfl⟩ | ⟨_, hd, _, _⟩
  · rw [isMismatchError_sentinel]
    exact Bool.false_ne_true
  · rw [show isMismatchError (Err.errorf ("skill name '".toList ++ t)) = false from rfl]
    exact Bool.false_ne_true
  · exact absurd rfl hd

/-- C6 (amended): when the directory-match rule fails, `validateName` reports exactly one
mismatch error (the mismatch errors of the list count to one); its message is built from the
base name of the directory exactly as in the path and from the skill name after trimming and
NFKC normalization, and contains both. -/
theorem mismatch_message_contents (U : UnicodeLib) (name skillDir : Str) (hname : name ≠ [])
    (hdir : skillDir ≠ []) (hmis : U.nfkc (Base skillDir) ≠ U.nfkc (TrimSpace name)) :
    (validateName U name skillDir).countP isMismatchError = 1 ∧
    ∃ e, e ∈ validateName U name skillDir ∧ isMismatchError e = true ∧
      (∀ e2 ∈ validateName U name skillDir, isMismatchError e2 = true → e2 = e) ∧
      e.Error = "directory name '".toList ++ Base skillDir ++
        "' must match skill name '".toList ++ U.nfkc (TrimSpace name) ++ "'".toList ∧
      Base skillDir <:+: e.Error ∧ U.nfkc (TrimSpace name) <:+: e.Error := by
  have hrec : isMismatchError (Err.errorf ("directory name '".toList ++ Base skillDir ++
      "' must match skill name '".toList ++ U.nfkc (TrimSpace name) ++ "'".toList)) = true := by
    unfold isMismatchError
    rw [hasPrefix_iff]
    simp only [Err.Error, List.append_assoc]
    exact List.prefix_append _ _
  refine ⟨?_, Err.errorf ("directory name '".toList ++ Base skillDir ++
    "' must match skill name '".toList ++ U.nfkc (TrimSpace name) ++ "'".toList),
    ?_, hrec, ?_, rfl, ?_, ?_⟩
  · rw [validateName_with_mismatch U name skillDir hname hdir hmis, List.countP_append,
      countP_mismatch_without_directory, List.countP_cons_of_pos _ _ hrec, List.countP_nil]
  · rw [validateName_eq, if_neg hname]
    simp only [List.mem_append]
    refine Or.inr (Or.inr (Or.inr (Or.inr (Or.inr ?_))))
    rw [if_pos ⟨hdir, hmis⟩]
    exact List.mem_singleton.2 rfl
  · intro e2 he2 hm
    rcases validateName_mem_cases he2 with ⟨s, rfl⟩ | ⟨t, rfl⟩ | ⟨_, _, _, rfl⟩
    · rw [isMismatchError_sentinel] at hm
      exact absurd hm Bool.false_ne_true
    · rw [show isMismatchError (Err.errorf ("skill name '".toList ++ t)) = false from rfl] at hm
      exact absurd hm Bool.false_ne_true
    · rfl
  · exact ⟨"directory name '".toList,
      "' must match skill name '".toList ++ U.nfkc (TrimSpace name) ++ "'".toList, by
        simp only [Err.Error, List.append_assoc]⟩
  · exact ⟨"directory name '".toList ++ Base skillDir ++ "' must match skill name '".toList,
      "'".toList, by simp only [Err.Error, List.append_assoc]⟩

/-- C6 (amended) at the name `correct-name` in the directory `/skills/wrong-name`. -/
theorem mismatch_message_contents_witness :
    (validateName unicodeFragment "correct-name".toList "/skills/wrong-name".toList).countP
        isMismatchError = 1 ∧
    ∃ e, e ∈ validateName unicodeFragment "correct-name".toList "/skills/wrong-name".toList ∧
      isMismatchError e = true ∧
      (∀ e2 ∈ validateName unicodeFragment "correct-name".toList "/skills/wrong-name".toList,
        isMismatchError e2 = true → e2 = e) ∧
      e.Error = "directory name '".toList ++ Base "/skills/wrong-name".toList ++
        "' must match skill name '".toList ++
        unicodeFragment.nfkc (TrimSpace "correct-name".toList) ++ "'".toList ∧
      Base "/skills/wrong-name".toList <:+: e.Error ∧
      unicodeFragment.nfkc (TrimSpace "correct-name".toList) <:+: e.Error :=
  mismatch_message_contents unicodeFragment "correct-name".toList "/skills/wrong-name".toList
    (by decide) (by decide) (by decide)

/-- C4: the result of `ValidateMetadata` is the concatenation, in this order, of the whitelist
error, the name group, the description group and the compatibility group; every group occurs in
the result whatever the other groups hold. -/
theorem validateMetadata_groups_in_order (U : UnicodeLib) (allowed : List Str)
    (metadata : RawMetadata) (skillDir : Str) :
    ValidateMetadata U allowed metadata skillDir =
        validateMetadataFields allowed metadata ++ nameGroup U metadata skillDir ++
          descriptionGroup metadata ++ compatibilityGroup metadata ∧
      validateMetadataFields allowed metadata <:+: ValidateMetadata U allowed metadata skillDir ∧
      nameGroup U metadata skillDir <:+: ValidateMetadata U allowed metadata skillDir ∧
      descriptionGroup metadata <:+: ValidateMetadata U allowed metadata skillDir ∧
      compatibilityGroup metadata <:+: ValidateMetadata U allowed metadata skillDir := by
  rw [validateMetadata_append]
  refine ⟨by simp only [List.append_assoc],
    ⟨[], nameGroup U metadata skillDir ++ (descriptionGroup metadata ++
      compatibilityGroup metadata), by simp only [List.nil_append]⟩,
    ⟨validateMetadataFields allowed metadata,
      descriptionGroup metadata ++ compatibilityGroup metadata, by
        simp only [List.append_assoc]⟩,
    ⟨validateMetadataFields allowed metadata ++ nameGroup U metadata skillDir,
      compatibilityGroup metadata, by simp only [List.append_assoc]⟩,
    ⟨validateMetadataFields allowed metadata ++ nameGroup U metadata skillDir ++
      descriptionGroup metadata, [], by simp only [List.append_assoc, List.append_nil]⟩⟩

/-- C5 fails on the code: a description of 342 ideographs has 342 characters, which is within the
limit of 1024, and `validateDescription` reports a length error for it, stating 1026 as its
length, because it measures bytes. -/
theorem validateDescription_counts_bytes :
    runeCount (List.replicate 342 '技') = 342 ∧
      validateDescription (List.replicate 342 '技') =
        [Err.errorf "description exceeds 1024 character limit (1026 chars)".toList] ∧
      isDescriptionLengthError
        (Err.errorf "description exceeds 1024 character limit (1026 chars)".toList) = true := by
  have hl : len (List.replicate 342 '技') = 1026 := by
    rw [len_replicate]
    decide
  have hne : List.replicate 342 '技' ≠ [] := by
    rw [List.replicate_succ]
    exact List.cons_ne_nil _ _
  refine ⟨List.length_replicate _ _, ?_, by decide⟩
  unfold validateDescription
  rw [if_neg hne, hl, if_pos (by decide)]
  decide

/-- C7: when `name` (respectively `description`) is present but is not a string, its group in the
result of `ValidateMetadata` is the single error `ErrNameEmpty` (respectively
`ErrDescriptionEmpty`), which is what the rule reports for the empty string, whatever the
directory; and the whole result equals the result for the same mapping with the empty string in
that field. -/
theorem nonstring_required_field_as_empty (U : UnicodeLib) (allowed : List Str)
    (metadata : RawMetadata) (skillDir : Str) :
    (∀ v, metadata.lookup "name".toList = some v → (∀ s, v ≠ .str s) →
      nameGroup U metadata skillDir = [ErrNameEmpty] ∧
      validateName U [] skillDir = [ErrNameEmpty] ∧
      ValidateMetadata U allowed metadata skillDir =
        validateMetadataFields allowed metadata ++ [ErrNameEmpty] ++
          descriptionGroup metadata ++ compatibilityGroup metadata ∧
      ValidateMetadata U allowed metadata skillDir =
        ValidateMetadata U allowed (mapSet metadata "name".toList (.str [])) skillDir) ∧
    (∀ v, metadata.lookup "description".toList = some v → (∀ s, v ≠ .str s) →
      descriptionGroup metadata = [ErrDescriptionEmpty] ∧
      validateDescription [] = [ErrDescriptionEmpty] ∧
      ValidateMetadata U allowed metadata skillDir =
        validateMetadataFields allowed metadata ++ nameGroup U metadata skillDir ++
          [ErrDescriptionEmpty] ++ compatibilityGroup metadata ∧
      ValidateMetadata U allowed metadata skillDir =
        ValidateMetadata U allowed (mapSet metadata "description".toList (.str [])) skillDir) := by
  constructor
  · intro v hv hns
    have hg : nameGroup U metadata skillDir = [ErrNameEmpty] := by
      unfold nameGroup
      rw [hv]
      simp only [asString_of_not_str v hns]
      exact validateName_empty U skillDir
    have hg2 : nameGroup U (mapSet metadata "name".toList (.str [])) skillDir =
        [ErrNameEmpty] := by
      unfold nameGroup
      rw [lookup_mapSet_self _ _ _ _ hv]
      exact validateName_empty U skillDir
    have hd : descriptionGroup (mapSet metadata "name".toList (.str [])) =
        descriptionGroup metadata := by
      unfold descriptionGroup
      rw [lookup_mapSet_ne _ _ _ _ (by decide)]
    have hc : compatibilityGroup (mapSet metadata "name".toList (.str [])) =
        compatibilityGroup metadata := by
      unfold compatibilityGroup
      rw [lookup_mapSet_ne _ _ _ _ (by decide)]
    refine ⟨hg, validateName_empty U skillDir, ?_, ?_⟩
    · rw [validateMetadata_append, hg]
      simp only [List.append_assoc]
    · rw [validateMetadata_append, validateMetadata_append, validateMetadataFields_mapSet,
        hg, hg2, hd, hc]
  · intro v hv hns
    have hg : descriptionGroup metadata = [ErrDescriptionEmpty] := by
      unfold descriptionGroup
      rw [hv]
      simp only [asString_of_not_str v hns]
      exact validateDescription_empty
    have hg2 : descriptionGroup (mapSet metadata "description".toList (.str [])) =
        [ErrDescriptionEmpty] := by
      unfold descriptionGroup
      rw [lookup_mapSet_self _ _ _ _ hv]
      exact validateDescription_empty
    have hn : nameGroup U (mapSet metadata "description".toList (.str [])) skillDir =
        nameGroup U metadata skillDir := by
      unfold nameGroup
      rw [lookup_mapSet_ne _ _ _ _ (by decide)]
    have hc : compatibilityGroup (mapSet metadata "description".toList (.str [])) =
        compatibilityGroup metadata := by
      unfold compatibilityGroup
      rw [lookup_mapSet_ne _ _ _ _ (by decide)]
    refine ⟨hg, validateDescription_empty, ?_, ?_⟩
    · rw [validateMetadata_append, hg]
      simp only [List.append_assoc]
    · rw [validateMetadata_append, validateMetadata_append, validateMetadataFields_mapSet,
        hg, hg2, hn, hc]

/-- C7 at the mapping with `name: 42` and `description: true` in the directory `/skills/x`: the
result is `ErrNameEmpty` followed by `ErrDescriptionEmpty`, without mismatch error. -/
theorem nonstring_required_field_as_empty_witness :
    ValidateMetadata unicodeFragment whitelist
        [("name".toList, .int 42), ("description".toList, .bool true)] "/skills/x".toList =
      [ErrNameEmpty, ErrDescriptionEmpty] := by
  have h := nonstring_required_field_as_empty unicodeFragment whitelist
    [("name".toList, .int 42), ("description".toList, .bool true)] "/skills/x".toList
  have hn := (h.1 (.int 42) rfl (fun s hs => Value.noConfusion hs)).2.2.1
  have hd := (h.2 (.bool true) rfl (fun s hs => Value.noConfusion hs)).1
  rw [hn, hd]
  rfl

/-- C8 fails on the code: for the mapping with `name: My_Skill` the normalized name is not
lowercase and holds the character `_`, and `ValidateMetadata` returns two errors made by
`fmt.Errorf`, neither of which matches `ErrNameNotLowercase` or `ErrNameInvalidChars` under
`errors.Is`. -/
theorem name_rule_errors_lack_sentinels :
    unicodeFragment.nfkc (TrimSpace "My_Skill".toList) = "My_Skill".toList ∧
      "My_Skill".toList ≠ ToLower unicodeFragment "My_Skill".toList ∧
      ValidateMetadata unicodeFragment whitelist
          [("name".toList, .str "My_Skill".toList), ("description".toList, .str "d".toList)] [] =
        [Err.errorf "skill name 'My_Skill' must be lowercase".toList,
         Err.errorf ("skill name 'My_Skill' contains invalid characters. " ++
           "Only letters, digits, and hyphens are allowed").toList] ∧
      (∀ e ∈ ValidateMetadata unicodeFragment whitelist
          [("name".toList, .str "My_Skill".toList), ("description".toList, .str "d".toList)] [],
        errorsIs e .NameNotLowercase = false ∧ errorsIs e .NameInvalidChars = false) := by
  refine ⟨by decide, by decide, by decide, by decide⟩

/-- C9: on a document that does not begin with `---`, `parseFrontmatter` returns no metadata, an
empty body and a `ParseError` that matches `ErrMissingFrontmatter` under `errors.Is`. -/
theorem parseFrontmatter_missing_frontmatter (Y : YamlLib) (content : Str)
    (h : ¬ "---".toList <+: content) :
    parseFrontmatter Y content = ⟨none, [], some (.ParseError [] ErrMissingFrontmatter)⟩ ∧
      (parseFrontmatter Y content).metadata = none ∧ (parseFrontmatter Y content).body = [] ∧
      ∃ path inner, (parseFrontmatter Y content).err = some (.ParseError path inner) ∧
        errorsIs (.ParseError path inner) .MissingFrontmatter = true := by
  have hp : HasPrefix content "---".toList = false := by
    rw [← Bool.not_eq_true, hasPrefix_iff]
    exact h
  have heq : parseFrontmatter Y content =
      ⟨none, [], some (.ParseError [] ErrMissingFrontmatter)⟩ := by
    unfold parseFrontmatter
    simp only [hp, Bool.not_false, if_true]
  rw [heq]
  exact ⟨rfl, rfl, rfl, [], ErrMissingFrontmatter, rfl, rfl⟩

/-- C9 at the document `# No frontmatter here`. -/
theorem parseFrontmatter_missing_frontmatter_witness :
    parseFrontmatter yamlFragment "# No frontmatter here".toList =
        ⟨none, [], some (.ParseError [] ErrMissingFrontmatter)⟩ ∧
      (parseFrontmatter yamlFragment "# No frontmatter here".toList).metadata = none ∧
      (parseFrontmatter yamlFragment "# No frontmatter here".toList).body = [] ∧
      ∃ path inner,
        (parseFrontmatter yamlFragment "# No frontmatter here".toList).err =
          some (.ParseError path inner) ∧
        errorsIs (.ParseError path inner) .MissingFrontmatter = true :=
  parseFrontmatter_missing_frontmatter yamlFragment "# No frontmatter here".toList (by decide)

/-- C10: on a document that begins with `---`, `parseFrontmatter` fails with
`ErrUnclosedFrontmatter` exactly when `SplitN` yields fewer than three segments, which is
exactly when the text after the leading `---` has no further occurrence of `---`. -/
theorem unclosed_iff_fewer_than_three_segments (Y : YamlLib) (content : Str)
    (h : "---".toList <+: content) :
    ((∃ e, (parseFrontmatter Y content).err = some e ∧ errorsIs e .UnclosedFrontmatter = true) ↔
        (SplitN content "---".toList 3).length < 3) ∧
      ((SplitN content "---".toList 3).length < 3 ↔ ¬ "---".toList <:+: content.drop 3) ∧
      ((SplitN content "---".toList 3).length < 3 →
        parseFrontmatter Y content =
          ⟨none, [], some (.ParseError [] ErrUnclosedFrontmatter)⟩) := by
  have hpf := parseFrontmatter_after_delimiter Y content h
  refine ⟨⟨?_, ?_⟩, ?_, ?_⟩
  · rintro ⟨e, he, his⟩
    by_contra hlen
    rw [hpf, if_neg hlen] at he
    split at he
    · simp only [Option.some.injEq] at he
      subst he
      exact absurd his (by simp [errorsIs, ErrInvalidYAML])
    · simp only [Option.some.injEq] at he
      subst he
      exact absurd his (by decide)
    · exact absurd he (by simp)
  · intro hlen
    rw [hpf, if_pos hlen]
    exact ⟨_, rfl, rfl⟩
  · obtain ⟨rest, rfl⟩ := h
    rw [splitN_after_delimiter]
    have hdrop : ("---".toList ++ rest).drop 3 = rest := rfl
    rw [hdrop, ← index_eq_none_iff]
    cases Index rest "---".toList with
    | none => simp
    | some m => simp
  · intro hlen
    rw [hpf, if_pos hlen]

/-- C10 at the unclosed document `---\nname: my-skill\ndescription: A test skill\n`: it fails
with `ErrUnclosedFrontmatter`. -/
theorem unclosed_iff_fewer_than_three_segments_witness :
    parseFrontmatter yamlFragment "---\nname: my-skill\ndescription: A test skill\n".toList =
      ⟨none, [], some (.ParseError [] ErrUnclosedFrontmatter)⟩ :=
  (unclosed_iff_fewer_than_three_segments yamlFragment
    "---\nname: my-skill\ndescription: A test skill\n".toList (by decide)).2.2 (by decide)

/-! ## Further facts about the extractor -/

theorem occurrences_eq_zero_iff (sep s : Str) : occurrences sep s = 0 ↔ ¬ sep <:+: s := by
  unfold occurrences
  rw [List.length_eq_zero, List.filter_eq_nil_iff, List.infix_iff_prefix_suffix]
  constructor
  · rintro h ⟨t, hp, hs⟩
    exact h t ((List.mem_tails _ _).2 hs) (by simpa using hp)
  · intro h t ht hp
    exact h ⟨t, by simpa using hp, (List.mem_tails _ _).1 ht⟩

theorem index_of_starts_with (sep s : Str) (h : sep <+: s) : Index s sep = some 0 := by
  cases s with
  | nil =>
    have : sep = [] := List.prefix_nil.1 h
    simp [Index, this]
  | cons c s =>
    unfold Index
    rw [if_pos ((hasPrefix_iff _ _).2 h)]

/-- The first occurrence: when no occurrence of `sep` begins within `p`, the index of `sep` in
`p ++ sep ++ r` is the length of `p`. -/
theorem index_of_first_occurrence (sep r : Str) :
    ∀ p : Str, (∀ k < p.length, ¬ sep <+: (p ++ sep ++ r).drop k) →
      Index (p ++ sep ++ r) sep = some p.length
  | [], _ => index_of_starts_with sep _ ⟨r, by simp⟩
  | c :: p, h => by
    have h0 : ¬ sep <+: (c :: p) ++ sep ++ r := h 0 (Nat.succ_pos _)
    have hp : ¬ HasPrefix (c :: (p ++ sep ++ r)) sep = true := by
      rw [hasPrefix_iff]
      simpa using h0
    have ih := index_of_first_occurrence sep r p (fun k hk => by
      have := h (k + 1) (Nat.succ_lt_succ hk)
      simpa using this)
    show Index (c :: (p ++ sep ++ r)) sep = some (p.length + 1)
    unfold Index
    rw [if_neg hp, ih]
    rfl

/-- What an index found by `Index` says: the text is cut there by `sep`, and no occurrence of
`sep` begins before. -/
theorem index_some_spec (sep : Str) :
    ∀ (s : Str) (m : Nat), Index s sep = some m →
      s = s.take m ++ sep ++ s.drop (m + sep.length) ∧ (s.take m).length = m ∧
        ∀ k < m, ¬ sep <+: s.drop k
  | [], m, h => by
    by_cases hs : sep = []
    · subst hs
      have : m = 0 := by simpa [Index] using h.symm
      subst this
      simp
    · simp [Index, hs] at h
  | c :: s, m, h => by
    unfold Index at h
    by_cases hp : HasPrefix (c :: s) sep = true
    · rw [if_pos hp] at h
      have hm : m = 0 := by simpa using h.symm
      subst hm
      obtain ⟨t, ht⟩ := (hasPrefix_iff _ _).1 hp
      refine ⟨?_, rfl, fun k hk => absurd hk (Nat.not_lt_zero k)⟩
      have hd : (c :: s).drop (0 + sep.length) = t := by
        rw [← ht, Nat.zero_add, List.drop_left]
      rw [hd, List.take_zero, List.nil_append, ht]
    · rw [if_neg hp] at h
      cases hi : Index s sep with
      | none => rw [hi] at h; simp at h
      | some m2 =>
        rw [hi] at h
        have hm : m = m2 + 1 := by simpa using h.symm
        subst hm
        obtain ⟨h1, h2, h3⟩ := index_some_spec sep s m2 hi
        refine ⟨?_, ?_, ?_⟩
        · have : (c :: s).drop (m2 + 1 + sep.length) = s.drop (m2 + sep.length) := by
            rw [show m2 + 1 + sep.length = (m2 + sep.length) + 1 by omega, List.drop_succ_cons]
          rw [this, List.take_succ_cons, List.cons_append, List.cons_append, ← h1]
        · rw [List.take_succ_cons, List.length_cons, h2]
        · intro k hk
          cases k with
          | zero =>
            intro hpre
            exact hp ((hasPrefix_iff _ _).2 (by simpa using hpre))
          | succ k =>
            rw [List.drop_succ_cons]
            exact h3 k (Nat.lt_of_succ_lt_succ hk)

/-- The extractor on a document cut by its first two delimiters: the decoder is applied to the
text between them, and the body is the trimmed remainder. -/
theorem parseFrontmatter_delimited (Y : YamlLib) (fm rest : Str)
    (hfirst : ∀ k < fm.length, ¬ "---".toList <+: (fm ++ "---".toList ++ rest).drop k) :
    parseFrontmatter Y ("---".toList ++ (fm ++ "---".toList ++ rest)) =
      match Y.Unmarshal fm with
      | .error e =>
        ⟨none, [], some (.ParseError []
          (.wrapf (ErrInvalidYAML.Error ++ ": ".toList ++ e) ErrInvalidYAML))⟩
      | .ok none => ⟨none, [], some (.ParseError [] ErrFrontmatterNotMapping)⟩
      | .ok (some metadata) => ⟨some (stringifyMetadata Y metadata), TrimSpace rest, none⟩ := by
  have hidx := index_of_first_occurrence "---".toList rest fm hfirst
  have hsplit : SplitN ("---".toList ++ (fm ++ "---".toList ++ rest)) "---".toList 3 =
      [[], fm, rest] := by
    rw [splitN_after_delimiter, hidx]
    simp only [List.append_assoc, List.take_left, List.cons.injEq, true_and, and_true]
    have : fm.length + 3 = (fm ++ "---".toList).length := by simp
    rw [this, ← List.append_assoc, List.drop_left]
  rw [parseFrontmatter_after_delimiter Y _ ⟨_, rfl⟩, hsplit]
  rfl

theorem trimSpace_newline_cons (s : Str) : TrimSpace ('\n' :: s) = TrimSpace s := by
  unfold TrimSpace
  rw [List.dropWhile_cons_of_pos (by decide)]

/-! ## The claims on the extractor -/

/-- C11, as stated, fails: the document of the package's own test has exactly one occurrence of
`---` after the leading one, which is fewer than two, and `parseFrontmatter` extracts it without
error. -/
theorem one_further_delimiter_is_extracted :
    "---".toList <+:
        "---\nname: my-skill\ndescription: A test skill\n---\n# My Skill\n".toList ∧
      occurrences "---".toList
        ("---\nname: my-skill\ndescription: A test skill\n---\n# My Skill\n".toList.drop 3)
        = 1 ∧
      (parseFrontmatter yamlFragment
        "---\nname: my-skill\ndescription: A test skill\n---\n# My Skill\n".toList).err
        = none ∧
      (parseFrontmatter yamlFragment
        "---\nname: my-skill\ndescription: A test skill\n---\n# My Skill\n".toList).body
        = "# My Skill".toList := by
  refine ⟨by decide, by decide, by decide, by decide⟩

/-- C11 (amended): a document that begins with `---` and has no occurrence of `---` after the
leading one makes `parseFrontmatter` fail with `ErrUnclosedFrontmatter`. -/
theorem unclosed_without_further_delimiter (Y : YamlLib) (content : Str)
    (h : "---".toList <+: content)
    (hocc : occurrences "---".toList (content.drop 3) = 0) :
    parseFrontmatter Y content = ⟨none, [], some (.ParseError [] ErrUnclosedFrontmatter)⟩ ∧
      ∃ e, (parseFrontmatter Y content).err = some e ∧
        errorsIs e .UnclosedFrontmatter = true := by
  have hpf := parseFrontmatter_after_delimiter Y content h
  obtain ⟨rest, rfl⟩ := h
  have hdrop : ("---".toList ++ rest).drop 3 = rest := rfl
  rw [hdrop, occurrences_eq_zero_iff, ← index_eq_none_iff] at hocc
  have hlen : (SplitN ("---".toList ++ rest) "---".toList 3).length < 3 := by
    rw [splitN_after_delimiter, hocc]
    exact Nat.lt_succ_self 2
  rw [if_pos hlen] at hpf
  rw [hpf]
  exact ⟨rfl, _, rfl, rfl⟩

/-- C11 (amended) at the document `---\nname: broken\n`. -/
theorem unclosed_without_further_delimiter_witness :
    parseFrontmatter yamlFragment "---\nname: broken\n".toList =
        ⟨none, [], some (.ParseError [] ErrUnclosedFrontmatter)⟩ ∧
      ∃ e, (parseFrontmatter yamlFragment "---\nname: broken\n".toList).err = some e ∧
        errorsIs e .UnclosedFrontmatter = true :=
  unclosed_without_further_delimiter yamlFragment "---\nname: broken\n".toList (by decide)
    (by decide)

/-- C12: a document that begins with `---` and contains a further `---` is cut as
`---`, `fm`, `---`, `rest`, where no occurrence of `---` begins within `fm`; for every such cut
the decoder is applied to `fm` exactly and, when it yields a mapping, the body is `rest` with
surrounding white space removed, whatever `rest` contains. -/
theorem frontmatter_and_body_segments (Y : YamlLib) (content : Str)
    (h1 : "---".toList <+: content) (h2 : "---".toList <:+: content.drop 3) :
    (∃ fm rest, content = "---".toList ++ (fm ++ "---".toList ++ rest) ∧
        ∀ k < fm.length, ¬ "---".toList <+: (fm ++ "---".toList ++ rest).drop k) ∧
      ∀ fm rest, content = "---".toList ++ (fm ++ "---".toList ++ rest) →
        (∀ k < fm.length, ¬ "---".toList <+: (fm ++ "---".toList ++ rest).drop k) →
        parseFrontmatter Y content =
          match Y.Unmarshal fm with
          | .error e =>
            ⟨none, [], some (.ParseError []
              (.wrapf (ErrInvalidYAML.Error ++ ": ".toList ++ e) ErrInvalidYAML))⟩
          | .ok none => ⟨none, [], some (.ParseError [] ErrFrontmatterNotMapping)⟩
          | .ok (some metadata) =>
            ⟨some (stringifyMetadata Y metadata), TrimSpace rest, none⟩ := by
  constructor
  · obtain ⟨rest0, rfl⟩ := h1
    have hdrop : ("---".toList ++ rest0).drop 3 = rest0 := rfl
    rw [hdrop] at h2
    cases hi : Index rest0 "---".toList with
    | none => exact absurd h2 ((index_eq_none_iff _ _).1 hi)
    | some m =>
      obtain ⟨hcut, hlen, hbefore⟩ := index_some_spec "---".toList rest0 m hi
      refine ⟨rest0.take m, rest0.drop (m + "---".toList.length), by rw [← hcut], ?_⟩
      intro k hk
      rw [← hcut]
      exact hbefore k (by omega)
  · rintro fm rest rfl hfirst
    exact parseFrontmatter_delimited Y fm rest hfirst

/-- C12 at a document whose body holds the delimiter: the body is `Body\n---\nMore`. -/
theorem frontmatter_and_body_segments_witness :
    (parseFrontmatter yamlFragment "---\nname: my-skill\n---\nBody\n---\nMore\n".toList).body =
      "Body\n---\nMore".toList := by
  have h := (frontmatter_and_body_segments yamlFragment
    "---\nname: my-skill\n---\nBody\n---\nMore\n".toList (by decide) (by decide)).2
    "\nname: my-skill\n".toList "\nBody\n---\nMore\n".toList rfl (by decide)
  rw [h]
  decide

/-- C13, as stated, fails: the mapping with `description: a---b` is decoded from its
serialisation, and the document built from it and the body `Body` is cut inside the
description, so that the body returned is `b\n---\nBody` and the description returned is `a`. -/
theorem roundtrip_fails_on_delimiter_in_value :
    yamlFragment.Unmarshal "\nname: x\ndescription: a---b\n".toList =
        .ok (some [("name".toList, .str "x".toList),
          ("description".toList, .str "a---b".toList)]) ∧
      (parseFrontmatter yamlFragment
        ("---".toList ++ ("\nname: x\ndescription: a---b\n".toList ++ "---".toList ++
          "\nBody\n".toList))).body = "b\n---\nBody".toList ∧
      "b\n---\nBody".toList ≠ TrimSpace "\nBody\n".toList ∧
      (parseFrontmatter yamlFragment
        ("---".toList ++ ("\nname: x\ndescription: a---b\n".toList ++ "---".toList ++
          "\nBody\n".toList))).metadata =
        some [("name".toList, .str "x".toList), ("description".toList, .str "a".toList)] := by
  refine ⟨rfl, by decide, by decide, rfl⟩

/-- C13 (amended): for every mapping `M`, every body `B` and every serialisation `S` of `M`
within which no occurrence of `---` begins, the document made of the line `---`, `S`, the line
`---` and `B` is extracted as `M` after the metadata-stringification step and `B` with
surrounding white space removed. -/
theorem roundtrip_without_delimiter (Y : YamlLib) (S B : Str) (M : RawMetadata)
    (hdec : Y.Unmarshal ('\n' :: S) = .ok (some M))
    (hfirst : ∀ k < ('\n' :: S).length,
      ¬ "---".toList <+: (('\n' :: S) ++ "---".toList ++ ('\n' :: B)).drop k) :
    parseFrontmatter Y ("---\n".toList ++ S ++ "---\n".toList ++ B) =
      ⟨some (stringifyMetadata Y M), TrimSpace B, none⟩ := by
  have hdoc : "---\n".toList ++ S ++ "---\n".toList ++ B =
      "---".toList ++ (('\n' :: S) ++ "---".toList ++ ('\n' :: B)) := by
    simp
  rw [hdoc, parseFrontmatter_delimited Y _ _ hfirst, hdec, trimSpace_newline_cons]

/-- C13 (amended) at the mapping with `name: my-skill` and `description: A test skill` and the
body `# My Skill\n\nInstructions here.\n`. -/
theorem roundtrip_without_delimiter_witness :
    parseFrontmatter yamlFragment
        ("---\n".toList ++ "name: my-skill\ndescription: A test skill\n".toList ++
          "---\n".toList ++ "# My Skill\n\nInstructions here.\n".toList) =
      ⟨some (stringifyMetadata yamlFragment
          [("name".toList, .str "my-skill".toList),
           ("description".toList, .str "A test skill".toList)]),
        TrimSpace "# My Skill\n\nInstructions here.\n".toList, none⟩ :=
  roundtrip_without_delimiter yamlFragment "name: my-skill\ndescription: A test skill\n".toList
    "# My Skill\n\nInstructions here.\n".toList _ rfl (by decide)

theorem stringifyMetadata_of_map (Y : YamlLib) (md : RawMetadata) (mm : List (Str × Value))
    (h : md.lookup "metadata".toList = some (.map mm)) :
    stringifyMetadata Y md =
      mapSet md "metadata".toList (.strMap (mm.map (fun kv => (kv.1, Y.Sprint kv.2)))) := by
  unfold stringifyMetadata
  rw [h]

theorem stringifyMetadata_of_not_map (Y : YamlLib) (md : RawMetadata)
    (h : ∀ mm, md.lookup "metadata".toList ≠ some (.map mm)) : stringifyMetadata Y md = md := by
  unfold stringifyMetadata
  split
  · next mm hm => exact absurd hm (h mm)
  · rfl

theorem lookup_map_values (f : Value → Str) (key : Str) :
    ∀ mm : List (Str × Value),
      (mm.map (fun kv => (kv.1, f kv.2))).lookup key = (mm.lookup key).map f
  | [] => rfl
  | (k, v) :: mm => by
    by_cases hk : key = k
    · subst hk
      simp [List.lookup]
    · have hk2 : (key == k) = false := by simpa using hk
      simp only [List.map_cons, List.lookup, hk2]
      exact lookup_map_values f key mm

/-- C14: when the decoded mapping holds a mapping under `metadata`, the mapping returned by
`parseFrontmatter` holds under `metadata` a string map with the same keys and the textual
representation of every value, and agrees with the decoded mapping on its keys and on every
other key's value; when `metadata` is absent or no mapping, the decoded mapping is returned
unchanged. -/
theorem metadata_values_stringified (Y : YamlLib) (content : Str) (md : RawMetadata)
    (h1 : "---".toList <+: content)
    (hparts : ¬ (SplitN content "---".toList 3).length < 3)
    (hdec : Y.Unmarshal ((SplitN content "---".toList 3).getD 1 []) = .ok (some md)) :
    ∃ out, (parseFrontmatter Y content).metadata = some out ∧
      (parseFrontmatter Y content).err = none ∧
      out.map Prod.fst = md.map Prod.fst ∧
      (∀ key, key ≠ "metadata".toList → out.lookup key = md.lookup key) ∧
      (∀ mm, md.lookup "metadata".toList = some (.map mm) →
        ∃ sm, out.lookup "metadata".toList = some (.strMap sm) ∧
          sm.map Prod.fst = mm.map Prod.fst ∧
          ∀ key, sm.lookup key = (mm.lookup key).map Y.Sprint) ∧
      ((∀ mm, md.lookup "metadata".toList ≠ some (.map mm)) → out = md) := by
  have hpf : parseFrontmatter Y content =
      ⟨some (stringifyMetadata Y md),
        TrimSpace ((SplitN content "---".toList 3).getD 2 []), none⟩ := by
    rw [parseFrontmatter_after_delimiter Y content h1, if_neg hparts, hdec]
    rfl
  refine ⟨stringifyMetadata Y md, by rw [hpf], by rw [hpf], ?_⟩
  by_cases hm : ∃ mm, md.lookup "metadata".toList = some (.map mm)
  · obtain ⟨mm, hmm⟩ := hm
    rw [stringifyMetadata_of_map Y md mm hmm]
    refine ⟨keys_mapSet _ _ _, fun key hkey => lookup_mapSet_ne _ _ _ _ hkey, ?_, ?_⟩
    · intro mm2 hmm2
      have : mm2 = mm := by
        rw [hmm] at hmm2
        injection hmm2 with h
        injection h with h
        exact h.symm
      subst this
      refine ⟨_, lookup_mapSet_self _ _ _ _ hmm, ?_, fun key => lookup_map_values Y.Sprint key mm2⟩
      rw [List.map_map]
      rfl
    · intro hno
      exact absurd hmm (hno mm)
  · have hno : ∀ mm, md.lookup "metadata".toList ≠ some (.map mm) :=
      fun mm h => hm ⟨mm, h⟩
    rw [stringifyMetadata_of_not_map Y md hno]
    exact ⟨rfl, fun _ _ => rfl, fun mm h => absurd h (hno mm), fun _ => rfl⟩

/-- The document of the witness of C14: `metadata` holds `author: Test Author` and
`version: 2`. -/
theorem nestedDocument_decodes :
    yamlBlockFragment.Unmarshal
        ((SplitN ("---\nname: my-skill\nmetadata:\n  author: Test Author\n  version: 2\n" ++
          "description: d\n---\nBody").toList "---".toList 3).getD 1 []) =
      .ok (some [("name".toList, .str "my-skill".toList),
        ("metadata".toList, .map [("author".toList, .str "Test Author".toList),
          ("version".toList, .int 2)]),
        ("description".toList, .str "d".toList)]) := rfl

/-- C14 at a document whose `metadata` holds `author: Test Author` and `version: 2`: the
mapping returned holds the string map with `author: Test Author` and `version: 2` (as text). -/
theorem metadata_values_stringified_witness :
    ∃ out, (parseFrontmatter yamlBlockFragment
        ("---\nname: my-skill\nmetadata:\n  author: Test Author\n  version: 2\n" ++
          "description: d\n---\nBody").toList).metadata = some out ∧
      out.lookup "metadata".toList =
        some (.strMap [("author".toList, "Test Author".toList),
          ("version".toList, "2".toList)]) ∧
      out.lookup "name".toList = some (.str "my-skill".toList) := by
  obtain ⟨out, hout, -, -, hother, hmeta, -⟩ := metadata_values_stringified yamlBlockFragment
    ("---\nname: my-skill\nmetadata:\n  author: Test Author\n  version: 2\n" ++
      "description: d\n---\nBody").toList _ (by decide) (by decide) nestedDocument_decodes
  refine ⟨out, hout, ?_, ?_⟩
  · have hsome : out = stringifyMetadata yamlBlockFragment
        [("name".toList, .str "my-skill".toList),
          ("metadata".toList, .map [("author".toList, .str "Test Author".toList),
            ("version".toList, .int 2)]),
          ("description".toList, .str "d".toList)] := by
      have h2 : (parseFrontmatter yamlBlockFragment
        ("---\nname: my-skill\nmetadata:\n  author: Test Author\n  version: 2\n" ++
          "description: d\n---\nBody").toList).metadata = some (stringifyMetadata
            yamlBlockFragment [("name".toList, .str "my-skill".toList),
              ("metadata".toList, .map [("author".toList, .str "Test Author".toList),
                ("version".toList, .int 2)]),
              ("description".toList, .str "d".toList)]) := rfl
      rw [hout] at h2
      exact Option.some.inj h2
    rw [hsome]
    rfl
  · rw [hother "name".toList (by decide)]
    rfl


/-! ## Facts about the reader -/

theorem asString_str (s : Str) : (Value.str s).asString = (s, true) := rfl

theorem readFields_missing_name (md : RawMetadata) (h : md.lookup "name".toList = none) :
    readFields md = .error (.ValidationError "name".toList [] ErrMissingName) := by
  unfold readFields
  rw [h]

theorem readFields_name_empty (md : RawMetadata) (v : Value)
    (h : md.lookup "name".toList = some v) (hv : ∀ s, v = .str s → TrimSpace s = []) :
    readFields md = .error (.ValidationError "name".toList [] ErrNameEmpty) := by
  unfold readFields
  rw [h]
  cases v with
  | str s => simp [Value.asString, hv s rfl]
  | _ => simp [Value.asString]

theorem readFields_missing_description (md : RawMetadata) (n : Str)
    (hn : md.lookup "name".toList = some (.str n)) (hn2 : TrimSpace n ≠ [])
    (h : md.lookup "description".toList = none) :
    readFields md = .error (.ValidationError "description".toList [] ErrMissingDescription) := by
  unfold readFields
  rw [hn]
  simp only [asString_str, Bool.not_true, Bool.false_or, decide_eq_true_eq, hn2, if_false]
  rw [h]

theorem readFields_description_empty (md : RawMetadata) (n : Str) (v : Value)
    (hn : md.lookup "name".toList = some (.str n)) (hn2 : TrimSpace n ≠ [])
    (h : md.lookup "description".toList = some v) (hv : ∀ s, v = .str s → TrimSpace s = []) :
    readFields md = .error (.ValidationError "description".toList [] ErrDescriptionEmpty) := by
  unfold readFields
  rw [hn]
  simp only [asString_str, Bool.not_true, Bool.false_or, decide_eq_true_eq, hn2, if_false]
  rw [h]
  cases v with
  | str s => simp [Value.asString, hv s rfl]
  | _ => simp [Value.asString]

theorem readFields_of_strings (md : RawMetadata) (n d : Str)
    (hn : md.lookup "name".toList = some (.str n)) (hn2 : TrimSpace n ≠ [])
    (hd : md.lookup "description".toList = some (.str d)) (hd2 : TrimSpace d ≠ []) :
    readFields md = .ok
      { Name := TrimSpace n, Description := TrimSpace d,
        License := (asStr (md.lookup "license".toList)).getD [],
        Compatibility := (asStr (md.lookup "compatibility".toList)).getD [],
        AllowedTools := (asStr (md.lookup "allowed-tools".toList)).getD [],
        Metadata := asStrMap (md.lookup "metadata".toList) } := by
  unfold readFields
  rw [hn]
  simp only [asString_str, Bool.not_true, Bool.false_or, decide_eq_true_eq, hn2, if_false]
  rw [hd]
  simp only [asString_str, Bool.not_true, Bool.false_or, decide_eq_true_eq, hd2, if_false]
  cases asStr (md.lookup "license".toList) <;>
    cases asStr (md.lookup "compatibility".toList) <;>
    cases asStr (md.lookup "allowed-tools".toList) <;>
    cases asStrMap (md.lookup "metadata".toList) <;> rfl

/-- A successful `readFields` comes from string values of `name` and `description` that are not
empty after trimming. -/
theorem readFields_ok_inv (md : RawMetadata) (props : SkillProperties)
    (h : readFields md = .ok props) :
    ∃ n d, md.lookup "name".toList = some (.str n) ∧ TrimSpace n ≠ [] ∧
      md.lookup "description".toList = some (.str d) ∧ TrimSpace d ≠ [] := by
  cases hn : md.lookup "name".toList with
  | none => rw [readFields_missing_name md hn] at h; exact absurd h (by simp)
  | some v =>
    by_cases hv : ∀ s, v = .str s → TrimSpace s = []
    · rw [readFields_name_empty md v hn hv] at h; exact absurd h (by simp)
    · push_neg at hv
      obtain ⟨n, rfl, hn2⟩ := hv
      cases hd : md.lookup "description".toList with
      | none =>
        rw [readFields_missing_description md n hn hn2 hd] at h; exact absurd h (by simp)
      | some w =>
        by_cases hw : ∀ s, w = .str s → TrimSpace s = []
        · rw [readFields_description_empty md n w hn hn2 hd hw] at h
          exact absurd h (by simp)
        · push_neg at hw
          obtain ⟨d, rfl, hd2⟩ := hw
          exact ⟨n, d, rfl, hn2, rfl, hd2⟩

theorem readProperties_of_extracted (F : FileSystem) (Y : YamlLib) (skillDir content : Str)
    (hfound : findSkillMD F skillDir ≠ [])
    (hread : F.ReadFile (findSkillMD F skillDir) = .ok content)
    (hparse : (parseFrontmatter Y content).err = none) :
    ReadProperties F Y skillDir = readFields ((parseFrontmatter Y content).metadata.getD []) := by
  unfold ReadProperties
  simp only [hfound, if_false, hread, hparse]

/-- A successful `ReadProperties` has found and read the file and extracted its frontmatter. -/
theorem readProperties_ok_inv (F : FileSystem) (Y : YamlLib) (skillDir : Str)
    (props : SkillProperties) (h : ReadProperties F Y skillDir = .ok props) :
    ∃ content, findSkillMD F skillDir ≠ [] ∧
      F.ReadFile (findSkillMD F skillDir) = .ok content ∧
      (parseFrontmatter Y content).err = none ∧
      readFields ((parseFrontmatter Y content).metadata.getD []) = .ok props := by
  unfold ReadProperties at h
  by_cases hf : findSkillMD F skillDir = []
  · simp [hf] at h
  · simp only [hf, if_false] at h
    cases hr : F.ReadFile (findSkillMD F skillDir) with
    | error e => simp [hr] at h
    | ok content =>
      simp only [hr] at h
      cases hp : (parseFrontmatter Y content).err with
      | some e => simp [hp] at h
      | none =>
        simp only [hp] at h
        exact ⟨content, hf, rfl, hp, h⟩

theorem trimSpace_noSurroundingSpace (s : Str) : noSurroundingSpace (TrimSpace s) := by
  unfold noSurroundingSpace TrimSpace
  constructor
  · intro r hr
    by_contra hsp
    have hsp2 : IsSpace r = true := by simpa using hsp
    have hne : (s.dropWhile IsSpace).rdropWhile IsSpace ≠ [] := by
      intro h0
      rw [h0] at hr
      simp at hr
    obtain ⟨t, ht⟩ := List.rdropWhile_prefix IsSpace (s.dropWhile IsSpace)
    cases hl : (s.dropWhile IsSpace).rdropWhile IsSpace with
    | nil => exact hne hl
    | cons c l =>
      rw [hl] at hr ht
      have hc : c = r := by simpa using hr
      subst hc
      have hd : s.dropWhile IsSpace = c :: (l ++ t) := by rw [← ht]; rfl
      have hhead := List.head_dropWhile_not IsSpace s (by rw [hd]; exact List.cons_ne_nil _ _)
      simp only [hd, List.head_cons] at hhead
      exact absurd hsp2 (by simpa using hhead)
  · intro r hr
    by_contra hsp
    have hsp2 : IsSpace r = true := by simpa using hsp
    have hne : (s.dropWhile IsSpace).rdropWhile IsSpace ≠ [] := by
      intro h0
      rw [h0] at hr
      simp at hr
    have hlast := List.rdropWhile_last_not IsSpace (s.dropWhile IsSpace) hne
    rw [List.getLast?_eq_getLast _ hne] at hr
    have : ((s.dropWhile IsSpace).rdropWhile IsSpace).getLast hne = r := by simpa using hr
    rw [this] at hlast
    exact hlast hsp2

/-! ## The claims on the reader -/

/-- C15: whenever `ReadProperties` succeeds, the file was found, read and extracted, `name` and
`description` of the extracted mapping are strings, and the returned `Name` and `Description`
are these strings with surrounding white space removed: they are not empty and neither start nor
end with white space. -/
theorem readProperties_required_fields (F : FileSystem) (Y : YamlLib) (skillDir : Str)
    (props : SkillProperties) (h : ReadProperties F Y skillDir = .ok props) :
    props.Name ≠ [] ∧ props.Description ≠ [] ∧
      noSurroundingSpace props.Name ∧ noSurroundingSpace props.Description ∧
      ∃ content n d, F.ReadFile (findSkillMD F skillDir) = .ok content ∧
        (parseFrontmatter Y content).err = none ∧
        ((parseFrontmatter Y content).metadata.getD []).lookup "name".toList = some (.str n) ∧
        ((parseFrontmatter Y content).metadata.getD []).lookup "description".toList =
          some (.str d) ∧
        props.Name = TrimSpace n ∧ props.Description = TrimSpace d := by
  obtain ⟨content, -, hread, hparse, hfields⟩ := readProperties_ok_inv F Y skillDir props h
  obtain ⟨n, d, hn, hn2, hd, hd2⟩ := readFields_ok_inv _ props hfields
  rw [readFields_of_strings _ n d hn hn2 hd hd2] at hfields
  have hp := (Except.ok.inj hfields).symm
  subst hp
  exact ⟨hn2, hd2, trimSpace_noSurroundingSpace n, trimSpace_noSurroundingSpace d,
    content, n, d, hread, hparse, hn, hd, rfl, rfl⟩

/-- C15 at the directory `/skills/valid-skill` of the sample file system. -/
theorem readProperties_required_fields_witness :
    ReadProperties sampleFiles yamlFragment "/skills/valid-skill".toList =
        .ok { Name := "valid-skill".toList, Description := "A valid test skill".toList,
              License := [], Compatibility := [], AllowedTools := [], Metadata := none } ∧
      "valid-skill".toList ≠ [] ∧ noSurroundingSpace "valid-skill".toList :=
  ⟨rfl,
    (readProperties_required_fields sampleFiles yamlFragment "/skills/valid-skill".toList
      { Name := "valid-skill".toList, Description := "A valid test skill".toList,
        License := [], Compatibility := [], AllowedTools := [], Metadata := none }
      rfl).1,
    (readProperties_required_fields sampleFiles yamlFragment "/skills/valid-skill".toList
      { Name := "valid-skill".toList, Description := "A valid test skill".toList,
        License := [], Compatibility := [], AllowedTools := [], Metadata := none }
      rfl).2.2.1⟩

/-- C16: once the file is found, read and extracted, `ReadProperties` fails with
`ErrMissingName` when `name` is absent, with `ErrNameEmpty` when `name` is no string or empty
after trimming, otherwise with `ErrMissingDescription` when `description` is absent, otherwise
with `ErrDescriptionEmpty` when `description` is no string or empty after trimming, and succeeds
otherwise; the error is the one of the first condition that applies, alone. -/
theorem readProperties_first_failure (F : FileSystem) (Y : YamlLib) (skillDir content : Str)
    (hfound : findSkillMD F skillDir ≠ [])
    (hread : F.ReadFile (findSkillMD F skillDir) = .ok content)
    (hparse : (parseFrontmatter Y content).err = none) :
    (((parseFrontmatter Y content).metadata.getD []).lookup "name".toList = none →
      ReadProperties F Y skillDir =
        .error (.ValidationError "name".toList [] ErrMissingName)) ∧
    (∀ v, ((parseFrontmatter Y content).metadata.getD []).lookup "name".toList = some v →
      (∀ s, v = .str s → TrimSpace s = []) →
      ReadProperties F Y skillDir =
        .error (.ValidationError "name".toList [] ErrNameEmpty)) ∧
    (∀ n, ((parseFrontmatter Y content).metadata.getD []).lookup "name".toList =
        some (.str n) → TrimSpace n ≠ [] →
      ((parseFrontmatter Y content).metadata.getD []).lookup "description".toList = none →
      ReadProperties F Y skillDir =
        .error (.ValidationError "description".toList [] ErrMissingDescription)) ∧
    (∀ n v, ((parseFrontmatter Y content).metadata.getD []).lookup "name".toList =
        some (.str n) → TrimSpace n ≠ [] →
      ((parseFrontmatter Y content).metadata.getD []).lookup "description".toList = some v →
      (∀ s, v = .str s → TrimSpace s = []) →
      ReadProperties F Y skillDir =
        .error (.ValidationError "description".toList [] ErrDescriptionEmpty)) ∧
    (∀ n d, ((parseFrontmatter Y content).metadata.getD []).lookup "name".toList =
        some (.str n) → TrimSpace n ≠ [] →
      ((parseFrontmatter Y content).metadata.getD []).lookup "description".toList =
        some (.str d) → TrimSpace d ≠ [] →
      ∃ props, ReadProperties F Y skillDir = .ok props) := by
  rw [readProperties_of_extracted F Y skillDir content hfound hread hparse]
  exact ⟨readFields_missing_name _, readFields_name_empty _,
    readFields_missing_description _, readFields_description_empty _,
    fun n d hn hn2 hd hd2 => ⟨_, readFields_of_strings _ n d hn hn2 hd hd2⟩⟩

/-- C16 at the directory `/skills/valid-skill`: both fields are present and `ReadProperties`
succeeds. -/
theorem readProperties_first_failure_witness :
    ∃ props, ReadProperties sampleFiles yamlFragment "/skills/valid-skill".toList = .ok props :=
  (readProperties_first_failure sampleFiles yamlFragment "/skills/valid-skill".toList
    "---\nname: valid-skill\ndescription: A valid test skill\n---\n# Valid Skill\n".toList
    (by decide) rfl (by decide)).2.2.2.2 "valid-skill".toList
    "A valid test skill".toList rfl (by decide) rfl (by decide)

/-- C17: once the file is found, read and extracted and the two required fields are strings
that are not empty after trimming, `ReadProperties` succeeds whatever the optional fields hold;
`License`, `Compatibility` and `AllowedTools` are the values of `license`, `compatibility` and
`allowed-tools` when these are strings and empty otherwise, and `Metadata` is the value of
`metadata` when it is a string map and nil otherwise. -/
theorem readProperties_optional_fields (F : FileSystem) (Y : YamlLib)
    (skillDir content n d : Str)
    (hfound : findSkillMD F skillDir ≠ [])
    (hread : F.ReadFile (findSkillMD F skillDir) = .ok content)
    (hparse : (parseFrontmatter Y content).err = none)
    (hn : ((parseFrontmatter Y content).metadata.getD []).lookup "name".toList = some (.str n))
    (hn2 : TrimSpace n ≠ [])
    (hd : ((parseFrontmatter Y content).metadata.getD []).lookup "description".toList =
      some (.str d))
    (hd2 : TrimSpace d ≠ []) :
    ∃ props, ReadProperties F Y skillDir = .ok props ∧
      (∀ key field, (key, field) ∈ [("license".toList, props.License),
          ("compatibility".toList, props.Compatibility),
          ("allowed-tools".toList, props.AllowedTools)] →
        (∀ s, ((parseFrontmatter Y content).metadata.getD []).lookup key = some (.str s) →
          field = s) ∧
        ((∀ s, ((parseFrontmatter Y content).metadata.getD []).lookup key ≠ some (.str s)) →
          field = [])) ∧
      (∀ m, ((parseFrontmatter Y content).metadata.getD []).lookup "metadata".toList =
          some (.strMap m) → props.Metadata = some m) ∧
      ((∀ m, ((parseFrontmatter Y content).metadata.getD []).lookup "metadata".toList ≠
          some (.strMap m)) → props.Metadata = none) := by
  have hasStr : ∀ key : Str,
      (∀ s, ((parseFrontmatter Y content).metadata.getD []).lookup key = some (.str s) →
        (asStr (((parseFrontmatter Y content).metadata.getD []).lookup key)).getD [] = s) ∧
      ((∀ s, ((parseFrontmatter Y content).metadata.getD []).lookup key ≠ some (.str s)) →
        (asStr (((parseFrontmatter Y content).metadata.getD []).lookup key)).getD [] = []) := by
    intro key
    constructor
    · intro s hs
      rw [hs]
      rfl
    · intro hno
      cases hl : ((parseFrontmatter Y content).metadata.getD []).lookup key with
      | none => rfl
      | some v =>
        cases v with
        | str s => exact absurd hl (hno s)
        | _ => rfl
  refine ⟨_, (readProperties_of_extracted F Y skillDir content hfound hread hparse).trans
    (readFields_of_strings _ n d hn hn2 hd hd2), ?_, ?_, ?_⟩
  · intro key field hmem
    simp only [List.mem_cons, Prod.mk.injEq, List.mem_singleton, List.not_mem_nil,
      or_false] at hmem
    rcases hmem with ⟨rfl, rfl⟩ | ⟨rfl, rfl⟩ | ⟨rfl, rfl⟩
    · exact hasStr _
    · exact hasStr _
    · exact hasStr _
  · intro m hm
    show asStrMap _ = some m
    rw [hm]
    rfl
  · intro hno
    show asStrMap _ = none
    cases hl : ((parseFrontmatter Y content).metadata.getD []).lookup "metadata".toList with
    | none => rfl
    | some v =>
      cases v with
      | strMap m => exact absurd hl (hno m)
      | _ => rfl

set_option maxRecDepth 100000 in
/-- C17 at the directory `/skills/with-metadata`, whose file holds `license: 7` (no string) and
a nested `metadata`: the license is left empty and the metadata is copied. -/
theorem readProperties_optional_fields_witness :
    ∃ props, ReadProperties sampleFiles yamlBlockFragment "/skills/with-metadata".toList =
        .ok props ∧
      props = { Name := "with-metadata".toList, Description := "Client data".toList,
                License := [], Compatibility := [], AllowedTools := [],
                Metadata := some [("author".toList, "Test Author".toList),
                  ("version".toList, "2".toList)] } := by
  obtain ⟨props, hprops, -, -, -⟩ := readProperties_optional_fields sampleFiles
    yamlBlockFragment "/skills/with-metadata".toList
    ("---\nname: with-metadata\ndescription: Client data\nlicense: 7\n" ++
      "metadata:\n  author: Test Author\n  version: 2\n---\nBody\n").toList
    "with-metadata".toList "Client data".toList (by decide) rfl rfl rfl
    (by decide) rfl (by decide)
  refine ⟨props, hprops, ?_⟩
  have h2 : ReadProperties sampleFiles yamlBlockFragment "/skills/with-metadata".toList =
      .ok { Name := "with-metadata".toList, Description := "Client data".toList,
            License := [], Compatibility := [], AllowedTools := [],
            Metadata := some [("author".toList, "Test Author".toList),
              ("version".toList, "2".toList)] } := rfl
  rw [hprops] at h2
  exact Except.ok.inj h2

/-! ## The claims on the entry point and on the aggregate -/

theorem validate_of_directory (F : FileSystem) (Y : YamlLib) (U : UnicodeLib)
    (allowed : List Str) (skillDir content : Str)
    (hstat : F.Stat skillDir = .info true) (hfound : findSkillMD F skillDir ≠ [])
    (hread : F.ReadFile (findSkillMD F skillDir) = .ok content) :
    Validate F Y U allowed skillDir =
      match (parseFrontmatter Y content).err with
      | some err => some ⟨[err]⟩
      | none =>
        if ValidateMetadata U allowed ((parseFrontmatter Y content).metadata.getD [])
            skillDir = [] then none
        else some ⟨ValidateMetadata U allowed ((parseFrontmatter Y content).metadata.getD [])
          skillDir⟩ := by
  unfold Validate
  simp only [hstat, Bool.not_true, Bool.false_eq_true, if_false, hfound, hread,
    List.length_eq_zero]

/-- C18: `Validate` returns nil exactly when the path is a directory, the frontmatter file is
found, read and extracted, and `ValidateMetadata` returns the empty list; every other result is
a `ValidationErrors` with at least one entry; and when the extraction fails the result holds
the extraction error alone. -/
theorem validate_nil_iff (F : FileSystem) (Y : YamlLib) (U : UnicodeLib) (allowed : List Str)
    (skillDir : Str) :
    (Validate F Y U allowed skillDir = none ↔
      F.Stat skillDir = .info true ∧ findSkillMD F skillDir ≠ [] ∧
        ∃ content, F.ReadFile (findSkillMD F skillDir) = .ok content ∧
          (parseFrontmatter Y content).err = none ∧
          ValidateMetadata U allowed ((parseFrontmatter Y content).metadata.getD [])
            skillDir = []) ∧
    (∀ v, Validate F Y U allowed skillDir = some v → v.Errors ≠ []) ∧
    (∀ content e, F.Stat skillDir = .info true → findSkillMD F skillDir ≠ [] →
      F.ReadFile (findSkillMD F skillDir) = .ok content →
      (parseFrontmatter Y content).err = some e →
      Validate F Y U allowed skillDir = some ⟨[e]⟩) := by
  refine ⟨?_, ?_, ?_⟩
  · constructor
    · intro h
      cases hs : F.Stat skillDir with
      | notExist e => simp [Validate, hs] at h
      | failed e => simp [Validate, hs] at h
      | info isDir =>
        cases isDir with
        | false => simp [Validate, hs] at h
        | true =>
          by_cases hf : findSkillMD F skillDir = []
          · simp [Validate, hs, hf] at h
          · cases hr : F.ReadFile (findSkillMD F skillDir) with
            | error e => simp [Validate, hs, hf, hr] at h
            | ok content =>
              rw [validate_of_directory F Y U allowed skillDir content hs hf hr] at h
              cases hp : (parseFrontmatter Y content).err with
              | some e => simp [hp] at h
              | none =>
                simp only [hp] at h
                by_cases hv : ValidateMetadata U allowed
                    ((parseFrontmatter Y content).metadata.getD []) skillDir = []
                · exact ⟨rfl, hf, content, rfl, hp, hv⟩
                · simp [hv] at h
    · rintro ⟨hs, hf, content, hr, hp, hv⟩
      rw [validate_of_directory F Y U allowed skillDir content hs hf hr]
      simp only [hp, hv, if_true]
  · intro v h
    cases hs : F.Stat skillDir with
    | notExist e =>
      simp only [Validate, hs, Option.some.injEq] at h
      rw [← h]
      exact List.cons_ne_nil _ _
    | failed e =>
      simp only [Validate, hs, Option.some.injEq] at h
      rw [← h]
      exact List.cons_ne_nil _ _
    | info isDir =>
      cases isDir with
      | false =>
        simp only [Validate, hs, Bool.not_false, if_true, Option.some.injEq] at h
        rw [← h]
        exact List.cons_ne_nil _ _
      | true =>
        by_cases hf : findSkillMD F skillDir = []
        · simp only [Validate, hs, hf, Bool.not_true, Bool.false_eq_true, if_false, if_true,
            Option.some.injEq] at h
          rw [← h]
          exact List.cons_ne_nil _ _
        · cases hr : F.ReadFile (findSkillMD F skillDir) with
          | error e =>
            simp only [Validate, hs, hf, hr, Bool.not_true, Bool.false_eq_true, if_false,
              Option.some.injEq] at h
            rw [← h]
            exact List.cons_ne_nil _ _
          | ok content =>
            rw [validate_of_directory F Y U allowed skillDir content hs hf hr] at h
            cases hp : (parseFrontmatter Y content).err with
            | some e =>
              simp only [hp, Option.some.injEq] at h
              rw [← h]
              exact List.cons_ne_nil _ _
            | none =>
              simp only [hp] at h
              by_cases hv : ValidateMetadata U allowed
                  ((parseFrontmatter Y content).metadata.getD []) skillDir = []
              · simp [hv] at h
              · simp only [hv, if_false, Option.some.injEq] at h
                rw [← h]
                exact hv
  · intro content e hs hf hr hp
    rw [validate_of_directory F Y U allowed skillDir content hs hf hr]
    simp only [hp]

/-- C18 at the sample file system: the directory `/skills/valid-skill` is valid, and the
directory `/skills/broken`, whose frontmatter is not closed, yields the extraction error
alone. -/
theorem validate_nil_iff_witness :
    Validate sampleFiles yamlFragment unicodeFragment whitelist "/skills/valid-skill".toList =
        none ∧
      Validate sampleFiles yamlFragment unicodeFragment whitelist "/skills/broken".toList =
        some ⟨[.ParseError [] ErrUnclosedFrontmatter]⟩ :=
  ⟨(validate_nil_iff sampleFiles yamlFragment unicodeFragment whitelist
      "/skills/valid-skill".toList).1.2
      ⟨rfl, by decide,
        "---\nname: valid-skill\ndescription: A valid test skill\n---\n# Valid Skill\n".toList,
        rfl, by decide, by decide⟩,
    (validate_nil_iff sampleFiles yamlFragment unicodeFragment whitelist
      "/skills/broken".toList).2.2 "---\nname: broken\n".toList _ rfl (by decide) rfl rfl⟩

/-- C19 fails on the code: for a path that does not exist and for a path that is a file,
`Validate` returns a `ValidationErrors` whose single entry is made by `fmt.Errorf` without
`%w`, so that the result matches neither `ErrPathNotExist` nor `ErrPathNotDirectory` under
`errors.Is`. -/
theorem path_errors_lack_sentinels :
    Validate sampleFiles yamlFragment unicodeFragment whitelist "/skills/nonexistent".toList =
        some ⟨[Err.errorf "path does not exist: /skills/nonexistent".toList]⟩ ∧
      (ValidationErrors.mk
        [Err.errorf "path does not exist: /skills/nonexistent".toList]).errorsIs
          .PathNotExist = false ∧
      Validate sampleFiles yamlFragment unicodeFragment whitelist "/skills/notes.txt".toList =
        some ⟨[Err.errorf "not a directory: /skills/notes.txt".toList]⟩ ∧
      (ValidationErrors.mk
        [Err.errorf "not a directory: /skills/notes.txt".toList]).errorsIs
          .PathNotDirectory = false := by
  refine ⟨by decide, by decide, by decide, by decide⟩

/-- C20 fails on the code: the aggregate of the two errors with messages `a` and `x\n` has the
string form `validation failed with 2 errors:\n  - a\n  - x`, in which the message `x\n` of the
second error does not occur, because `strings.TrimRight` removes the line feed that belongs to
the message together with the one written after it. -/
theorem error_text_drops_trailing_line_feed :
    ((ValidationErrors.mk []).AddMessage "a".toList).AddMessage "x\n".toList =
        ⟨[Err.errorf "a".toList, Err.errorf "x\n".toList]⟩ ∧
      (ValidationErrors.mk [Err.errorf "a".toList, Err.errorf "x\n".toList]).Error =
        "validation failed with 2 errors:\n  - a\n  - x".toList ∧
      ¬ (Err.errorf "x\n".toList).Error <:+:
        (ValidationErrors.mk [Err.errorf "a".toList, Err.errorf "x\n".toList]).Error ∧
      (ValidationErrors.mk [Err.errorf "x\n".toList]).Error = "x\n".toList := by
  refine ⟨by decide, by decide, by decide, by decide⟩

/-! ## What the string form of the aggregate does list -/

theorem writeErrors_append (l : Err) :
    ∀ (xs : List Err) (sb : Str),
      writeErrors sb (xs ++ [l]) =
        writeErrors sb xs ++ "  - ".toList ++ l.Error ++ "\n".toList
  | [], sb => rfl
  | x :: xs, sb => by
    show writeErrors (sb ++ "  - ".toList ++ x.Error ++ "\n".toList) (xs ++ [l]) = _
    rw [writeErrors_append l xs]
    rfl

theorem writeErrors_starts_with : ∀ (xs : List Err) (sb : Str), sb <+: writeErrors sb xs
  | [], sb => List.prefix_refl _
  | x :: xs, sb => by
    have h := writeErrors_starts_with xs (sb ++ "  - ".toList ++ x.Error ++ "\n".toList)
    exact (List.prefix_append sb _).trans (by simpa [List.append_assoc, writeErrors] using h)

theorem writeErrors_holds_message :
    ∀ (xs : List Err) (sb : Str) (e : Err), e ∈ xs → e.Error <:+: writeErrors sb xs
  | [], _, _, h => by simp at h
  | x :: xs, sb, e, h => by
    rcases List.mem_cons.1 h with h | h
    · subst h
      have hp := writeErrors_starts_with xs (sb ++ "  - ".toList ++ e.Error ++ "\n".toList)
      have hi : e.Error <:+: sb ++ "  - ".toList ++ e.Error ++ "\n".toList :=
        ⟨sb ++ "  - ".toList, "\n".toList, by simp⟩
      exact hi.trans hp.isInfix
    · exact writeErrors_holds_message xs _ e h

theorem getLast_after_dash (A B : Str) (hB : B.getLast? ≠ some '\n') :
    (A ++ "  - ".toList ++ B).getLast? ≠ some '\n' := by
  rw [List.getLast?_append]
  cases hb : B.getLast? with
  | none =>
    rw [List.getLast?_append]
    simp
  | some c =>
    rw [hb] at hB
    simpa using hB

/-- What `Error()` does list: when the message of the last error does not end in a line feed,
the message of every held error occurs in the string form. -/
theorem error_text_lists_messages (v : ValidationErrors) (e : Err) (he : e ∈ v.Errors)
    (hlast : ∀ l, v.Errors.getLast? = some l → l.Error.getLast? ≠ some '\n') :
    e.Error <:+: v.Error := by
  obtain ⟨errs⟩ := v
  simp only at he hlast
  have hne : errs ≠ [] := List.ne_nil_of_mem he
  obtain ⟨xs, l, rfl⟩ : ∃ xs l, errs = xs ++ [l] :=
    ⟨errs.dropLast, errs.getLast hne, (List.dropLast_append_getLast hne).symm⟩
  have hl : l.Error.getLast? ≠ some '\n' := hlast l (by simp)
  cases xs with
  | nil =>
    have : e = l := by simpa using he
    subst this
    exact List.infix_refl _
  | cons x xs =>
    have herr : (ValidationErrors.mk (x :: xs ++ [l])).Error =
        TrimRight (writeErrors ("validation failed with ".toList ++
          (fmtInt (x :: xs ++ [l]).length ++ " errors:\n".toList)) (x :: xs ++ [l]))
          "\n".toList := by
      cases xs <;> rfl
    rw [herr]
    generalize "validation failed with ".toList ++
      (fmtInt (x :: xs ++ [l]).length ++ " errors:\n".toList) = sb
    have hw : writeErrors sb (x :: xs ++ [l]) =
        (writeErrors sb (x :: xs) ++ "  - ".toList ++ l.Error) ++ ['\n'] :=
      writeErrors_append l (x :: xs) sb
    have htrim : TrimRight (writeErrors sb (x :: xs ++ [l])) "\n".toList =
        writeErrors sb (x :: xs) ++ "  - ".toList ++ l.Error := by
      unfold TrimRight
      rw [hw, List.rdropWhile_concat_pos _ _ _ (by decide), List.rdropWhile_eq_self_iff]
      intro hz
      have hq := getLast_after_dash (writeErrors sb (x :: xs)) l.Error hl
      rw [List.getLast?_eq_getLast _ hz] at hq
      intro hp
      apply hq
      have : (writeErrors sb (x :: xs) ++ "  - ".toList ++ l.Error).getLast hz = '\n' := by
        simpa using hp
      rw [this]
    rw [htrim]
    rcases List.mem_append.1 he with he | he
    · exact (writeErrors_holds_message (x :: xs) sb e he).trans
        ⟨[], "  - ".toList ++ l.Error, by simp⟩
    · have : e = l := by simpa using he
      subst this
      exact ⟨writeErrors sb (x :: xs) ++ "  - ".toList, [], by simp⟩

/-! ## Facts about the projection -/

/-- Four guarded appends to a map under construction. -/
theorem guarded_entries (c1 c2 c3 c4 : Prop) [Decidable c1] [Decidable c2] [Decidable c3]
    [Decidable c4] (base : RawMetadata) (e1 e2 e3 e4 : Str × Value) :
    (let result := base
     let result := if c1 then result ++ [e1] else result
     let result := if c2 then result ++ [e2] else result
     let result := if c3 then result ++ [e3] else result
     let result := if c4 then result ++ [e4] else result
     result) =
    base ++ ((if c1 then [e1] else []) ++ ((if c2 then [e2] else []) ++
      ((if c3 then [e3] else []) ++ (if c4 then [e4] else [])))) := by
  by_cases h1 : c1 <;> by_cases h2 : c2 <;> by_cases h3 : c3 <;> by_cases h4 : c4 <;>
    simp [h1, h2, h3, h4]

theorem toMap_eq (p : SkillProperties) :
    p.ToMap =
      [("name".toList, .str p.Name), ("description".toList, .str p.Description)] ++
        ((if p.License ≠ [] then [("license".toList, Value.str p.License)] else []) ++
        ((if p.Compatibility ≠ [] then [("compatibility".toList, Value.str p.Compatibility)]
          else []) ++
        ((if p.AllowedTools ≠ [] then [("allowed-tools".toList, Value.str p.AllowedTools)]
          else []) ++
        (if (p.Metadata.getD []).length > 0 then
          [("metadata".toList, Value.strMap (p.Metadata.getD []))] else [])))) :=
  guarded_entries _ _ _ _ _ _ _ _ _

theorem toMap_keys_whitelisted (p : SkillProperties) :
    ∀ key ∈ p.ToMap.map Prod.fst, key ∈ whitelist := by
  intro key hkey
  rw [toMap_eq] at hkey
  simp only [List.map_append, List.mem_append, List.map_cons, List.map_nil, List.mem_cons,
    List.mem_singleton, List.not_mem_nil, or_false] at hkey
  rcases hkey with (h | h) | h | h | h | h
  · rw [h]; decide
  · rw [h]; decide
  · split_ifs at h
    · simp only [List.map_cons, List.map_nil, List.mem_singleton] at h
      rw [h]; decide
    · simp at h
  · split_ifs at h
    · simp only [List.map_cons, List.map_nil, List.mem_singleton] at h
      rw [h]; decide
    · simp at h
  · split_ifs at h
    · simp only [List.map_cons, List.map_nil, List.mem_singleton] at h
      rw [h]; decide
    · simp at h
  · split_ifs at h
    · simp only [List.map_cons, List.map_nil, List.mem_singleton] at h
      rw [h]; decide
    · simp at h

theorem lookup_eq_none_of_not_key (m : RawMetadata) (key : Str)
    (h : key ∉ m.map Prod.fst) : m.lookup key = none := by
  induction m with
  | nil => rfl
  | cons kv m ih =>
    obtain ⟨k, v⟩ := kv
    have hk : key ≠ k := fun hk => h (by simp [hk])
    rw [lookup_cons_ne _ _ _ _ hk]
    exact ih (fun hm => h (by simp [hm]))

/-! ## The claims on the projection -/

/-- C25: the mapping of `ToMap` holds `name` and `description` with the stored values, holds
`license`, `compatibility` and `allowed-tools` exactly when the field is not empty, with the
stored value, holds `metadata` exactly when the `Metadata` map has an entry, holds no key
outside these six, and holds no key twice. -/
theorem toMap_contents (p : SkillProperties) :
    p.ToMap.lookup "name".toList = some (.str p.Name) ∧
      p.ToMap.lookup "description".toList = some (.str p.Description) ∧
      p.ToMap.lookup "license".toList =
        (if p.License ≠ [] then some (.str p.License) else none) ∧
      p.ToMap.lookup "compatibility".toList =
        (if p.Compatibility ≠ [] then some (.str p.Compatibility) else none) ∧
      p.ToMap.lookup "allowed-tools".toList =
        (if p.AllowedTools ≠ [] then some (.str p.AllowedTools) else none) ∧
      p.ToMap.lookup "metadata".toList =
        (if (p.Metadata.getD []).length > 0 then some (.strMap (p.Metadata.getD []))
         else none) ∧
      (∀ key, key ∉ whitelist → p.ToMap.lookup key = none) ∧
      (p.ToMap.map Prod.fst).Nodup := by
  have hother : ∀ key, key ∉ whitelist → p.ToMap.lookup key = none := fun key hkey =>
    lookup_eq_none_of_not_key _ _ (fun hmem => hkey (toMap_keys_whitelisted p key hmem))
  refine ⟨?_, ?_, ?_, ?_, ?_, ?_, hother, ?_⟩ <;> rw [toMap_eq] <;>
    by_cases h1 : p.License = [] <;> by_cases h2 : p.Compatibility = [] <;>
    by_cases h3 : p.AllowedTools = [] <;>
    by_cases h4 : (p.Metadata.getD []).length > 0 <;>
    simp only [h1, h2, h3, h4, ne_eq, not_true_eq_false, not_false_eq_true, if_true,
      if_false] <;>
    first
      | rfl
      | (simp only [List.map_append, List.map_cons, List.map_nil, List.nil_append,
          List.cons_append, List.append_nil]
         decide)

/-- C28: every key of `p.ToMap()` is one of the six whitelisted fields, and the field-whitelist
check returns no error on it, whatever the order in which the allowed fields are visited. -/
theorem toMap_passes_whitelist (allowed : List Str) (p : SkillProperties) :
    (∀ key ∈ p.ToMap.map Prod.fst, key ∈ whitelist) ∧
      validateMetadataFields allowed p.ToMap = [] := by
  refine ⟨toMap_keys_whitelisted p, ?_⟩
  rw [validateMetadataFields_eq, if_pos]
  rw [extraFields_eq_nil_iff]
  rintro ⟨key, hkey, hnot⟩
  exact hnot (toMap_keys_whitelisted p key hkey)

/-! ## The claims on the name rules and on the two levels of validation -/

theorem ite_of_iff {α : Type} (c d : Prop) [Decidable c] [Decidable d] (h : c ↔ d) (a b : α) :
    (if c then a else b) = (if d then a else b) := by
  by_cases hc : c
  · rw [if_pos hc, if_pos (h.1 hc)]
  · rw [if_neg hc, if_neg (fun hd => hc (h.2 hd))]

/-- C26: for a non-empty name, with `n` the NFKC normal form of the trimmed name, the result of
`validateName` is the concatenation, in this order, of the length error when `n` has more than
64 bytes, the lowercase error when `n` differs from its lowercase form, `ErrNameLeadingHyphen`
when `n` starts or ends with a hyphen, `ErrNameConsecutiveHyphen` when `n` contains `--`, the
invalid-characters error when some rune of `n` is no letter, no digit and no hyphen, and the
mismatch error when the directory context is not empty and the NFKC normal form of its base
name differs from `n`; each error depends on its own condition only. -/
theorem validateName_exact_errors (U : UnicodeLib) (name skillDir : Str) (hne : name ≠ []) :
    validateName U name skillDir =
      (if len (U.nfkc (TrimSpace name)) > 64 then
        [Err.errorf ("skill name '".toList ++ U.nfkc (TrimSpace name) ++ "' exceeds ".toList ++
          "64".toList ++ " character limit (".toList ++
          fmtInt (len (U.nfkc (TrimSpace name))) ++ " chars)".toList)]
       else []) ++
      ((if U.nfkc (TrimSpace name) ≠ ToLower U (U.nfkc (TrimSpace name)) then
        [Err.errorf ("skill name '".toList ++ U.nfkc (TrimSpace name) ++
          "' must be lowercase".toList)]
       else []) ++
      ((if "-".toList <+: U.nfkc (TrimSpace name) ∨ "-".toList <:+ U.nfkc (TrimSpace name) then
        [ErrNameLeadingHyphen]
       else []) ++
      ((if "--".toList <:+: U.nfkc (TrimSpace name) then [ErrNameConsecutiveHyphen] else []) ++
      ((if ∃ r ∈ U.nfkc (TrimSpace name),
            U.isLetter r = false ∧ U.isDigit r = false ∧ r ≠ '-' then
        [Err.errorf ("skill name '".toList ++ U.nfkc (TrimSpace name) ++
          "' contains invalid characters. Only letters, digits, and hyphens are allowed".toList)]
       else []) ++
      (if skillDir ≠ [] ∧ U.nfkc (Base skillDir) ≠ U.nfkc (TrimSpace name) then
        [Err.errorf ("directory name '".toList ++ Base skillDir ++
          "' must match skill name '".toList ++ U.nfkc (TrimSpace name) ++ "'".toList)]
       else []))))) := by
  rw [validateName_eq, if_neg hne]
  have h3 : ((HasPrefix (U.nfkc (TrimSpace name)) "-".toList ||
      HasSuffix (U.nfkc (TrimSpace name)) "-".toList) = true) ↔
      ("-".toList <+: U.nfkc (TrimSpace name) ∨ "-".toList <:+ U.nfkc (TrimSpace name)) := by
    rw [Bool.or_eq_true, hasPrefix_iff, hasSuffix_iff]
  have h4 : (Contains (U.nfkc (TrimSpace name)) "--".toList = true) ↔
      "--".toList <:+: U.nfkc (TrimSpace name) := contains_iff _ _
  have h5 : ((U.nfkc (TrimSpace name)).any
      (fun r => !U.isLetter r && !U.isDigit r && r != '-') = true) ↔
      ∃ r ∈ U.nfkc (TrimSpace name),
        U.isLetter r = false ∧ U.isDigit r = false ∧ r ≠ '-' := by
    rw [List.any_eq_true]
    constructor
    · rintro ⟨r, hr, h⟩
      refine ⟨r, hr, ?_⟩
      simpa [and_assoc] using h
    · rintro ⟨r, hr, h⟩
      refine ⟨r, hr, ?_⟩
      simpa [and_assoc] using h
  rw [ite_of_iff _ _ h3, ite_of_iff _ _ h4, ite_of_iff _ _ h5]
  rfl

/-- C26 at the name `-My_Skill--x-` in the directory `a/b/c///`: five of the six errors. -/
theorem validateName_exact_errors_witness :
    validateName unicodeFragment "-My_Skill--x-".toList "a/b/c///".toList =
      [Err.errorf "skill name '-My_Skill--x-' must be lowercase".toList,
       ErrNameLeadingHyphen, ErrNameConsecutiveHyphen,
       Err.errorf ("skill name '-My_Skill--x-' contains invalid characters. " ++
         "Only letters, digits, and hyphens are allowed").toList,
       Err.errorf "directory name 'c' must match skill name '-My_Skill--x-'".toList] :=
  (validateName_exact_errors unicodeFragment "-My_Skill--x-".toList "a/b/c///".toList
    (by decide)).trans (by decide)

/-- C27 fails on the code: the mapping with `name: my-skill` and the description ` ` (one
blank) passes `ValidateMetadata` in the directory `/skills/my-skill` without any error, and the
required-field checks of `ReadProperties` reject it with `ErrDescriptionEmpty`; likewise the
name ` ` passes `ValidateMetadata` without directory context and is rejected with
`ErrNameEmpty`. -/
theorem validateMetadata_accepts_blank_fields :
    ValidateMetadata unicodeFragment whitelist
        [("name".toList, .str "my-skill".toList), ("description".toList, .str " ".toList)]
        "/skills/my-skill".toList = [] ∧
      readFields
        [("name".toList, .str "my-skill".toList), ("description".toList, .str " ".toList)] =
        .error (.ValidationError "description".toList [] ErrDescriptionEmpty) ∧
      ValidateMetadata unicodeFragment whitelist
        [("name".toList, .str " ".toList), ("description".toList, .str "d".toList)] [] = [] ∧
      readFields
        [("name".toList, .str " ".toList), ("description".toList, .str "d".toList)] =
        .error (.ValidationError "name".toList [] ErrNameEmpty) := by
  refine ⟨by decide, rfl, by decide, rfl⟩

/-! ## Facts about the prompt renderer -/

theorem toPromptLoop_of_read (P : Process) (F : FileSystem) (Y : YamlLib) :
    ∀ (skillDirs : List Str) (read : List (Str × SkillProperties)) (lines : List Str),
      List.Forall₂ (readsAs P F Y) skillDirs read →
      toPromptLoop P F Y lines skillDirs = .ok (lines ++ skillBlocks F read)
  | [], _, lines, h => by
    cases h
    simp [toPromptLoop, skillBlocks]
  | d :: ds, _, lines, h => by
    cases h with
    | cons hd htl =>
      rename_i r rs
      obtain ⟨absDir, props⟩ := r
      obtain ⟨habs, hprops⟩ := hd
      simp only at habs hprops
      unfold toPromptLoop
      simp only [habs, hprops]
      rw [toPromptLoop_of_read P F Y ds rs _ htl]
      simp [skillBlocks, skillLines]

theorem toPromptLoop_of_failure (P : Process) (F : FileSystem) (Y : YamlLib) (d : Str)
    (post : List Str) (e : Err)
    (hfail : P.Abs d = .error e ∨ ∃ absDir, P.Abs d = .ok absDir ∧
      ReadProperties F Y absDir = .error e) :
    ∀ (before : List Str) (read : List (Str × SkillProperties)) (lines : List Str),
      List.Forall₂ (readsAs P F Y) before read →
      toPromptLoop P F Y lines (before ++ d :: post) = .error e
  | [], _, lines, h => by
    cases h
    show toPromptLoop P F Y lines (d :: post) = .error e
    unfold toPromptLoop
    rcases hfail with habs | ⟨absDir, habs, hread⟩
    · simp only [habs]
    · simp only [habs, hread]
  | b :: bs, _, lines, h => by
    cases h with
    | cons hd htl =>
      rename_i r rs
      obtain ⟨absDir, props⟩ := r
      obtain ⟨habs, hprops⟩ := hd
      simp only at habs hprops
      show toPromptLoop P F Y lines (b :: (bs ++ d :: post)) = .error e
      unfold toPromptLoop
      simp only [habs, hprops]
      exact toPromptLoop_of_failure P F Y d post e hfail bs rs _ htl

theorem toPrompt_of_read (P : Process) (F : FileSystem) (Y : YamlLib) (skillDirs : List Str)
    (read : List (Str × SkillProperties))
    (h : List.Forall₂ (readsAs P F Y) skillDirs read) :
    ToPrompt P F Y skillDirs =
      (Join (["<available_skills>".toList] ++ skillBlocks F read ++
        ["</available_skills>".toList]) "\n".toList, none) := by
  cases skillDirs with
  | nil =>
    cases h
    rfl
  | cons d ds =>
    unfold ToPrompt
    rw [if_neg (by simp)]
    simp only [List.nil_append]
    rw [toPromptLoop_of_read P F Y (d :: ds) read _ h]

/-! ## The claims on the prompt renderer -/

/-- C21: when every directory of the list is read successfully, `ToPrompt` returns, without
error, the lines `<available_skills>`, the eleven lines of every skill in the order of the
list, and `</available_skills>`, joined by line feeds; for the empty list this is the text
`<available_skills>\n</available_skills>` of the special case. -/
theorem toPrompt_template (P : Process) (F : FileSystem) (Y : YamlLib) (skillDirs : List Str)
    (read : List (Str × SkillProperties))
    (h : List.Forall₂ (readsAs P F Y) skillDirs read) :
    ToPrompt P F Y skillDirs =
        (Join (["<available_skills>".toList] ++ skillBlocks F read ++
          ["</available_skills>".toList]) "\n".toList, none) ∧
      ToPrompt P F Y [] = ("<available_skills>\n</available_skills>".toList, none) ∧
      Join (["<available_skills>".toList] ++ skillBlocks F [] ++
          ["</available_skills>".toList]) "\n".toList =
        "<available_skills>\n</available_skills>".toList :=
  ⟨toPrompt_of_read P F Y skillDirs read h, rfl, rfl⟩

set_option maxRecDepth 100000 in
/-- C21 at the list of the directories `valid-skill` and `/skills/special-chars`. -/
theorem toPrompt_template_witness :
    ToPrompt sampleProcess promptFiles yamlFragment
        ["valid-skill".toList, "/skills/special-chars".toList] =
      (("<available_skills>\n<skill>\n<name>\nvalid-skill\n</name>\n<description>\n" ++
        "A valid test skill\n</description>\n<location>\n/skills/valid-skill/SKILL.md\n" ++
        "</location>\n</skill>\n<skill>\n<name>\nspecial-chars\n</name>\n<description>\n" ++
        "Use &lt;foo&gt; &amp; &lt;bar&gt; tags\n</description>\n<location>\n" ++
        "/skills/special-chars/SKILL.md\n</location>\n</skill>\n</available_skills>").toList,
        none) :=
  ((toPrompt_template sampleProcess promptFiles yamlFragment
    ["valid-skill".toList, "/skills/special-chars".toList]
    [("/skills/valid-skill".toList,
       { Name := "valid-skill".toList, Description := "A valid test skill".toList,
         License := [], Compatibility := [], AllowedTools := [], Metadata := none }),
     ("/skills/special-chars".toList,
       { Name := "special-chars".toList, Description := "Use <foo> & <bar> tags".toList,
         License := [], Compatibility := [], AllowedTools := [], Metadata := none })]
    (List.Forall₂.cons ⟨rfl, rfl⟩ (List.Forall₂.cons ⟨rfl, rfl⟩ List.Forall₂.nil))).1).trans
    rfl

/-- C23: when the directories before `d` are read successfully and `d` fails, at
`filepath.Abs` or in `ReadProperties`, `ToPrompt` returns the empty string and the error of
`d`, whatever the directories after `d`. -/
theorem toPrompt_fails_fast (P : Process) (F : FileSystem) (Y : YamlLib)
    (before post : List Str) (read : List (Str × SkillProperties)) (d : Str) (e : Err)
    (hbefore : List.Forall₂ (readsAs P F Y) before read)
    (hfail : P.Abs d = .error e ∨ ∃ absDir, P.Abs d = .ok absDir ∧
      ReadProperties F Y absDir = .error e) :
    ToPrompt P F Y (before ++ d :: post) = ([], some e) := by
  unfold ToPrompt
  rw [if_neg (by simp)]
  simp only [List.nil_append]
  rw [toPromptLoop_of_failure P F Y d post e hfail before read _ hbefore]

/-- C23 at the list `valid-skill`, `nonexistent`, `special-chars`: the result is the empty string
and the error of `nonexistent`. -/
theorem toPrompt_fails_fast_witness :
    ToPrompt sampleProcess promptFiles yamlFragment
        (["valid-skill".toList] ++ "nonexistent".toList :: ["special-chars".toList]) =
      ([], some (.ParseError "/skills/nonexistent".toList ErrSkillMDNotFound)) :=
  toPrompt_fails_fast sampleProcess promptFiles yamlFragment ["valid-skill".toList]
    ["special-chars".toList]
    [("/skills/valid-skill".toList,
       { Name := "valid-skill".toList, Description := "A valid test skill".toList,
         License := [], Compatibility := [], AllowedTools := [], Metadata := none })]
    "nonexistent".toList _ (List.Forall₂.cons ⟨rfl, rfl⟩ List.Forall₂.nil)
    (Or.inr ⟨"/skills/nonexistent".toList, rfl, rfl⟩)

/-! ## Facts about the escaping -/

theorem escapeString_append (a b : Str) :
    EscapeString (a ++ b) = EscapeString a ++ EscapeString b := by
  induction a with
  | nil => rfl
  | cons r a ih =>
    show escapeRune r ++ EscapeString (a ++ b) = escapeRune r ++ EscapeString a ++ EscapeString b
    rw [ih, List.append_assoc]

theorem escapeRune_safe (r c : Char) (hc : c ∈ escapeRune r) :
    c ≠ '<' ∧ c ≠ '>' ∧ c ≠ Char.ofNat 34 ∧ c ≠ Char.ofNat 39 := by
  unfold escapeRune at hc
  split_ifs at hc with h1 h2 h3 h4 h5
  · revert hc c
    decide
  · revert hc c
    decide
  · revert hc c
    decide
  · revert hc c
    decide
  · revert hc c
    decide
  · have hcr : c = r := by simpa using hc
    subst hcr
    exact ⟨h3, h4, h5, h2⟩

theorem escapeString_safe (s : Str) :
    ∀ c ∈ EscapeString s, c ≠ '<' ∧ c ≠ '>' ∧ c ≠ Char.ofNat 34 ∧ c ≠ Char.ofNat 39 := by
  induction s with
  | nil => intro c hc; simp [EscapeString] at hc
  | cons r s ih =>
    intro c hc
    rcases List.mem_append.1 (show c ∈ escapeRune r ++ EscapeString s from hc) with h | h
    · exact escapeRune_safe r c h
    · exact ih c h

/-- The tails of what one rune is replaced by: an `&` stands only at the head of an entity. -/
theorem escapeRune_ampersand (r : Char) (rest t : Str) (ht : t <:+ escapeRune r ++ rest)
    (hamp : t.head? = some '&') :
    (∃ ent ∈ entities, ent <+: t) ∨ t <:+ rest := by
  unfold escapeRune at ht
  split_ifs at ht with h1 h2 h3 h4 h5
  · simp only [String.toList, List.cons_append, List.nil_append, List.suffix_cons_iff] at ht
    rcases ht with rfl | rfl | rfl | rfl | rfl | ht
    · exact Or.inl ⟨"&amp;".toList, by decide, ⟨rest, rfl⟩⟩
    · exact absurd (Option.some.inj hamp) (by decide)
    · exact absurd (Option.some.inj hamp) (by decide)
    · exact absurd (Option.some.inj hamp) (by decide)
    · exact absurd (Option.some.inj hamp) (by decide)
    · exact Or.inr ht
  · simp only [String.toList, List.cons_append, List.nil_append, List.suffix_cons_iff] at ht
    rcases ht with rfl | rfl | rfl | rfl | rfl | ht
    · exact Or.inl ⟨"&#39;".toList, by decide, ⟨rest, rfl⟩⟩
    · exact absurd (Option.some.inj hamp) (by decide)
    · exact absurd (Option.some.inj hamp) (by decide)
    · exact absurd (Option.some.inj hamp) (by decide)
    · exact absurd (Option.some.inj hamp) (by decide)
    · exact Or.inr ht
  · simp only [String.toList, List.cons_append, List.nil_append, List.suffix_cons_iff] at ht
    rcases ht with rfl | rfl | rfl | rfl | ht
    · exact Or.inl ⟨"&lt;".toList, by decide, ⟨rest, rfl⟩⟩
    · exact absurd (Option.some.inj hamp) (by decide)
    · exact absurd (Option.some.inj hamp) (by decide)
    · exact absurd (Option.some.inj hamp) (by decide)
    · exact Or.inr ht
  · simp only [String.toList, List.cons_append, List.nil_append, List.suffix_cons_iff] at ht
    rcases ht with rfl | rfl | rfl | rfl | ht
    · exact Or.inl ⟨"&gt;".toList, by decide, ⟨rest, rfl⟩⟩
    · exact absurd (Option.some.inj hamp) (by decide)
    · exact absurd (Option.some.inj hamp) (by decide)
    · exact absurd (Option.some.inj hamp) (by decide)
    · exact Or.inr ht
  · simp only [String.toList, List.cons_append, List.nil_append, List.suffix_cons_iff] at ht
    rcases ht with rfl | rfl | rfl | rfl | rfl | ht
    · exact Or.inl ⟨"&#34;".toList, by decide, ⟨rest, rfl⟩⟩
    · exact absurd (Option.some.inj hamp) (by decide)
    · exact absurd (Option.some.inj hamp) (by decide)
    · exact absurd (Option.some.inj hamp) (by decide)
    · exact absurd (Option.some.inj hamp) (by decide)
    · exact Or.inr ht
  · simp only [List.cons_append, List.nil_append, List.suffix_cons_iff] at ht
    rcases ht with rfl | ht
    · exact absurd (by simpa using hamp) h1
    · exact Or.inr ht

theorem escapeString_ampersand (s : Str) :
    ∀ t, t <:+ EscapeString s → t.head? = some '&' → ∃ ent ∈ entities, ent <+: t := by
  induction s with
  | nil =>
    intro t ht hamp
    have : t = [] := List.suffix_nil.1 ht
    subst this
    simp at hamp
  | cons r s ih =>
    intro t ht hamp
    rcases escapeRune_ampersand r (EscapeString s) t ht hamp with h | h
    · exact h
    · exact ih t h hamp

theorem join_cons (a : Str) (ls : List Str) (sep : Str) (h : ls ≠ []) :
    Join (a :: ls) sep = a ++ sep ++ Join ls sep := by
  cases ls with
  | nil => exact absurd rfl h
  | cons b rest => rfl

theorem join_append (sep : Str) (ys : List Str) (hy : ys ≠ []) :
    ∀ xs : List Str, xs ≠ [] → Join (xs ++ ys) sep = Join xs sep ++ sep ++ Join ys sep
  | [], h => absurd rfl h
  | [a], _ => by
    show Join (a :: ys) sep = _
    rw [join_cons a ys sep hy]
    rfl
  | a :: b :: rest, _ => by
    show Join (a :: ((b :: rest) ++ ys)) sep = _
    rw [join_cons a _ sep (by simp), join_append sep ys hy (b :: rest) (by simp),
      join_cons a (b :: rest) sep (by simp)]
    simp only [List.append_assoc]

theorem join_infix_of_infix (sep : Str) (ls lines : List Str) (hne : ls ≠ [])
    (h : ls <:+: lines) : Join ls sep <:+: Join lines sep := by
  obtain ⟨a, b, rfl⟩ := h
  by_cases ha : a = [] <;> by_cases hb : b = []
  · subst ha hb
    simp only [List.nil_append, List.append_nil]
    exact List.infix_refl _
  · subst ha
    simp only [List.nil_append]
    rw [join_append sep b hb ls hne]
    exact ⟨[], sep ++ Join b sep, by simp⟩
  · subst hb
    simp only [List.append_nil]
    rw [join_append sep ls hne a ha]
    exact ⟨Join a sep ++ sep, [], by simp⟩
  · rw [join_append sep b hb (a ++ ls) (by simp [ha]), join_append sep ls hne a ha]
    exact ⟨Join a sep ++ sep, sep ++ Join b sep, by simp⟩

theorem skillLines_infix_skillBlocks (F : FileSystem) :
    ∀ (read : List (Str × SkillProperties)) (r : Str × SkillProperties), r ∈ read →
      skillLines r.2.Name r.2.Description (findSkillMD F r.1) <:+: skillBlocks F read
  | [], _, h => by simp at h
  | (absDir, props) :: rest, r, h => by
    rcases List.mem_cons.1 h with h | h
    · subst h
      exact ⟨[], skillBlocks F rest, by simp [skillBlocks]⟩
    · obtain ⟨a, b, hab⟩ := skillLines_infix_skillBlocks F rest r h
      exact ⟨skillLines props.Name props.Description (findSkillMD F absDir) ++ a, b, by
        simp only [skillBlocks, List.append_assoc] at hab ⊢
        rw [← hab]⟩

/-- The name and the description of every skill read stand in the output between their tags,
escaped. -/
theorem toPrompt_holds_escaped (P : Process) (F : FileSystem) (Y : YamlLib)
    (skillDirs : List Str) (read : List (Str × SkillProperties))
    (h : List.Forall₂ (readsAs P F Y) skillDirs read) (r : Str × SkillProperties)
    (hr : r ∈ read) :
    "<name>\n".toList ++ EscapeString r.2.Name ++ "\n</name>\n<description>\n".toList ++
      EscapeString r.2.Description ++ "\n</description>".toList <:+:
      (ToPrompt P F Y skillDirs).1 := by
  rw [toPrompt_of_read P F Y skillDirs read h]
  have hjoin : Join ["<name>".toList, EscapeString r.2.Name, "</name>".toList,
      "<description>".toList, EscapeString r.2.Description, "</description>".toList]
      "\n".toList =
      "<name>\n".toList ++ EscapeString r.2.Name ++ "\n</name>\n<description>\n".toList ++
        EscapeString r.2.Description ++ "\n</description>".toList := by
    simp [Join]
  rw [← hjoin]
  apply join_infix_of_infix _ _ _ (by simp)
  have h1 : ["<name>".toList, EscapeString r.2.Name, "</name>".toList,
      "<description>".toList, EscapeString r.2.Description, "</description>".toList] <:+:
      skillLines r.2.Name r.2.Description (findSkillMD F r.1) :=
    ⟨["<skill>".toList],
      ["<location>".toList, findSkillMD F r.1, "</location>".toList, "</skill>".toList], rfl⟩
  have h2 := skillLines_infix_skillBlocks F read r hr
  have h3 : skillBlocks F read <:+:
      ["<available_skills>".toList] ++ skillBlocks F read ++ ["</available_skills>".toList] :=
    ⟨["<available_skills>".toList], ["</available_skills>".toList], rfl⟩
  exact (h1.trans h2).trans h3

/-- C22: in the output of `ToPrompt` the name and the description of every skill read stand
between their tags in the form that `html.EscapeString` gives them; an escaped text holds none
of the runes `<`, `>`, `"` and `'`, every `&` in it begins one of the five entities, a `<foo>`
of the value is written `&lt;foo&gt;`, an `&` of the value is written `&amp;`, and `<foo>` does
not occur in it. -/
theorem escaped_name_and_description (P : Process) (F : FileSystem) (Y : YamlLib)
    (skillDirs : List Str) (read : List (Str × SkillProperties))
    (h : List.Forall₂ (readsAs P F Y) skillDirs read) :
    (∀ r ∈ read,
      "<name>\n".toList ++ EscapeString r.2.Name ++ "\n</name>\n<description>\n".toList ++
        EscapeString r.2.Description ++ "\n</description>".toList <:+:
        (ToPrompt P F Y skillDirs).1) ∧
    (∀ s : Str,
      (∀ c ∈ EscapeString s, c ≠ '<' ∧ c ≠ '>' ∧ c ≠ Char.ofNat 34 ∧ c ≠ Char.ofNat 39) ∧
      (∀ t, t <:+ EscapeString s → t.head? = some '&' → ∃ ent ∈ entities, ent <+: t) ∧
      ("<foo>".toList <:+: s → "&lt;foo&gt;".toList <:+: EscapeString s) ∧
      ('&' ∈ s → "&amp;".toList <:+: EscapeString s) ∧
      ¬ "<foo>".toList <:+: EscapeString s) := by
  refine ⟨fun r hr => toPrompt_holds_escaped P F Y skillDirs read h r hr, fun s =>
    ⟨escapeString_safe s, escapeString_ampersand s, ?_, ?_, ?_⟩⟩
  · rintro ⟨a, b, rfl⟩
    rw [escapeString_append, escapeString_append]
    exact ⟨EscapeString a, EscapeString b, rfl⟩
  · intro hmem
    obtain ⟨a, b, rfl⟩ := List.append_of_mem hmem
    rw [escapeString_append]
    exact ⟨EscapeString a, EscapeString b, by
      show EscapeString a ++ "&amp;".toList ++ EscapeString b =
        EscapeString a ++ (escapeRune '&' ++ EscapeString b)
      rw [List.append_assoc]
      rfl⟩
  · rintro ⟨a, b, hab⟩
    have hmem : '<' ∈ EscapeString s := by
      rw [← hab]
      simp
    exact (escapeString_safe s '<' hmem).1 rfl

set_option maxRecDepth 100000 in
/-- C22 at the directory `special-chars`, whose description is `Use <foo> & <bar> tags`: the
output holds `&lt;foo&gt;` and `&amp;`. -/
theorem escaped_name_and_description_witness :
    "&lt;foo&gt;".toList <:+:
        (ToPrompt sampleProcess promptFiles yamlFragment ["special-chars".toList]).1 ∧
      "&amp;".toList <:+:
        (ToPrompt sampleProcess promptFiles yamlFragment ["special-chars".toList]).1 := by
  obtain ⟨hout, hesc⟩ := escaped_name_and_description sampleProcess promptFiles yamlFragment
    ["special-chars".toList]
    [("/skills/special-chars".toList,
       { Name := "special-chars".toList, Description := "Use <foo> & <bar> tags".toList,
         License := [], Compatibility := [], AllowedTools := [], Metadata := none })]
    (List.Forall₂.cons ⟨rfl, rfl⟩ List.Forall₂.nil)
  have h1 := hout _ (List.mem_singleton.2 rfl)
  obtain ⟨-, -, hfoo, hamp, -⟩ := hesc "Use <foo> & <bar> tags".toList
  have hd : EscapeString "Use <foo> & <bar> tags".toList <:+:
      "<name>\n".toList ++ EscapeString "special-chars".toList ++
        "\n</name>\n<description>\n".toList ++ EscapeString "Use <foo> & <bar> tags".toList ++
        "\n</description>".toList :=
    ⟨"<name>\n".toList ++ EscapeString "special-chars".toList ++
      "\n</name>\n<description>\n".toList, "\n</description>".toList, rfl⟩
  exact ⟨((hfoo (by decide)).trans hd).trans h1, ((hamp (by decide)).trans hd).trans h1⟩

/-! ## Facts about the count of the tags -/

theorem occurrences_cons (p : Str) (c : Char) (s : Str) :
    occurrences p (c :: s) = (if p <+: c :: s then 1 else 0) + occurrences p s := by
  unfold occurrences
  rw [List.tails, List.filter_cons]
  by_cases h : p <+: c :: s
  · have hb : p.isPrefixOf (c :: s) = true := by simpa using h
    rw [if_pos hb, if_pos h, List.length_cons]
    omega
  · have hb : ¬ p.isPrefixOf (c :: s) = true := by simpa using h
    rw [if_neg hb, if_neg h]
    omega

theorem neverStarts_cons (p : Str) (c : Char) (w : Str) (h : neverStarts p (c :: w) = true) :
    (∀ b, ¬ p <+: (c :: w) ++ b) ∧ neverStarts p w = true := by
  unfold neverStarts at h
  rw [List.tails, List.all_cons, Bool.and_eq_true] at h
  refine ⟨fun b hp => ?_, h.2⟩
  have h1 : ¬ (c :: w).take p.length <+: p := by
    have h0 := h.1
    simp only [List.isEmpty_cons, Bool.false_or, Bool.not_eq_true', ← Bool.not_eq_true,
      List.isPrefixOf_iff_prefix] at h0
    exact h0
  apply h1
  have hpre : (c :: w).take p.length <+: (c :: w) ++ b :=
    (List.take_prefix _ _).trans (List.prefix_append _ _)
  exact List.prefix_of_prefix_length_le hpre hp (by
    rw [List.length_take]
    exact Nat.min_le_left _ _)

theorem occurrences_skip (p b : Str) :
    ∀ w : Str, neverStarts p w = true → occurrences p (w ++ b) = occurrences p b
  | [], _ => rfl
  | c :: w, h => by
    obtain ⟨h1, h2⟩ := neverStarts_cons p c w h
    show occurrences p (c :: (w ++ b)) = _
    have h0 : ¬ p <+: c :: (w ++ b) := h1 b
    rw [occurrences_cons, if_neg h0, Nat.zero_add]
    exact occurrences_skip p b w h2

theorem neverStarts_of_no_tag_start (q : Str) :
    ∀ w : Str, (∀ c ∈ w, c ≠ '<') → neverStarts ('<' :: q) w = true
  | [], _ => rfl
  | c :: w, h => by
    unfold neverStarts
    rw [List.tails, List.all_cons, Bool.and_eq_true]
    refine ⟨?_, neverStarts_of_no_tag_start q w (fun x hx => h x (List.mem_cons_of_mem _ hx))⟩
    have hc : c ≠ '<' := h c (List.mem_cons_self _ _)
    simp [List.isPrefixOf, hc]

theorem occurrences_at_match (p b : Str) (c : Char) (q : Str) (hp : p = c :: q)
    (hq : neverStarts p q = true) :
    occurrences p (p ++ b) = 1 + occurrences p b := by
  subst hp
  show occurrences (c :: q) (c :: (q ++ b)) = _
  rw [occurrences_cons, if_pos ⟨b, rfl⟩, occurrences_skip _ b q hq]

theorem join_skillLines (n d l : Str) (more : List Str) (hmore : more ≠ []) :
    Join (skillLines n d l ++ more) "\n".toList =
      "<skill>".toList ++ ("\n<name>\n".toList ++ (EscapeString n ++
        ("\n</name>\n<description>\n".toList ++ (EscapeString d ++
          ("\n</description>\n<location>\n".toList ++ (l ++ ("\n</location>\n".toList ++
            ("</skill>".toList ++ ("\n".toList ++ Join more "\n".toList))))))))) := by
  simp only [skillLines, List.cons_append, List.nil_append]
  rw [join_cons _ _ _ (List.cons_ne_nil _ _), join_cons _ _ _ (List.cons_ne_nil _ _),
    join_cons _ _ _ (List.cons_ne_nil _ _), join_cons _ _ _ (List.cons_ne_nil _ _),
    join_cons _ _ _ (List.cons_ne_nil _ _), join_cons _ _ _ (List.cons_ne_nil _ _),
    join_cons _ _ _ (List.cons_ne_nil _ _), join_cons _ _ _ (List.cons_ne_nil _ _),
    join_cons _ _ _ (List.cons_ne_nil _ _), join_cons _ _ _ (List.cons_ne_nil _ _),
    join_cons _ _ _ hmore]
  simp only [List.append_assoc]
  rfl

theorem escaped_never_starts (q s : Str) : neverStarts ('<' :: q) (EscapeString s) = true :=
  neverStarts_of_no_tag_start q _ (fun c hc => (escapeString_safe s c hc).1)

/-- An occurrence of `p`, a text without line feed, cannot begin within `w` when `w` does not
contain `p` and a line feed follows `w`. -/
theorem occurrences_skip_line (p k t b : Str) (hp : '\n' ∉ p) (hk : k = '\n' :: t) :
    ∀ w : Str, ¬ p <:+: w → occurrences p (w ++ (k ++ b)) = occurrences p (k ++ b)
  | [], _ => rfl
  | c :: w, h => by
    have h0 : ¬ p <+: c :: (w ++ (k ++ b)) := by
      intro hpre
      have hfull : c :: w <+: c :: (w ++ (k ++ b)) := List.prefix_append (c :: w) (k ++ b)
      rcases Nat.lt_or_ge (c :: w).length p.length with hlt | hge
      · have hline : (c :: w) ++ ['\n'] <+: c :: (w ++ (k ++ b)) :=
          ⟨t ++ b, by rw [hk]; simp only [List.append_assoc, List.cons_append, List.nil_append]⟩
        have hsub : (c :: w) ++ ['\n'] <+: p :=
          List.prefix_of_prefix_length_le hline hpre (by
            rw [List.length_append, List.length_singleton]
            omega)
        exact hp (hsub.subset (List.mem_append_right _ (List.mem_singleton.2 rfl)))
      · exact h (List.prefix_of_prefix_length_le hpre hfull hge).isInfix
    have hw : ¬ p <:+: w := fun hin => h (hin.trans (List.suffix_cons c w).isInfix)
    show occurrences p (c :: (w ++ (k ++ b))) = _
    rw [occurrences_cons, if_neg h0, Nat.zero_add]
    exact occurrences_skip_line p k t b hp hk w hw

theorem skillBlocks_cons (F : FileSystem) (absDir : Str) (props : SkillProperties)
    (rest : List (Str × SkillProperties)) :
    skillBlocks F ((absDir, props) :: rest) ++ ["</available_skills>".toList] =
      skillLines props.Name props.Description (findSkillMD F absDir) ++
        (skillBlocks F rest ++ ["</available_skills>".toList]) := by
  simp only [skillBlocks, List.append_assoc]

/-- The count of the opening tag in the lines of the skills read, closed by the last line. -/
theorem occurrences_of_opening_tag (F : FileSystem) :
    ∀ read : List (Str × SkillProperties),
      (∀ r ∈ read, ¬ "<skill>".toList <:+: findSkillMD F r.1) →
      occurrences "<skill>".toList
          (Join (skillBlocks F read ++ ["</available_skills>".toList]) "\n".toList) =
        read.length
  | [], _ => rfl
  | (absDir, props) :: rest, h => by
    have ih := occurrences_of_opening_tag F rest (fun r hr => h r (List.mem_cons_of_mem _ hr))
    have hl : ¬ "<skill>".toList <:+: findSkillMD F absDir :=
      h (absDir, props) (List.mem_cons_self _ _)
    have hn : neverStarts "<skill>".toList (EscapeString props.Name) = true :=
      escaped_never_starts "skill>".toList props.Name
    have hd : neverStarts "<skill>".toList (EscapeString props.Description) = true :=
      escaped_never_starts "skill>".toList props.Description
    rw [skillBlocks_cons, join_skillLines _ _ _ _ (by simp),
      occurrences_at_match "<skill>".toList _ '<' "skill>".toList rfl (by decide),
      occurrences_skip "<skill>".toList _ "\n<name>\n".toList (by decide),
      occurrences_skip "<skill>".toList _ _ hn,
      occurrences_skip "<skill>".toList _ "\n</name>\n<description>\n".toList (by decide),
      occurrences_skip "<skill>".toList _ _ hd,
      occurrences_skip "<skill>".toList _ "\n</description>\n<location>\n".toList
        (by decide),
      occurrences_skip_line "<skill>".toList "\n</location>\n".toList "</location>\n".toList _
        (by decide) rfl _ hl,
      occurrences_skip "<skill>".toList _ "\n</location>\n".toList (by decide),
      occurrences_skip "<skill>".toList _ "</skill>".toList (by decide),
      occurrences_skip "<skill>".toList _ "\n".toList (by decide), ih, List.length_cons]
    omega

/-- The count of the closing tag in the lines of the skills read, closed by the last line. -/
theorem occurrences_of_closing_tag (F : FileSystem) :
    ∀ read : List (Str × SkillProperties),
      (∀ r ∈ read, ¬ "</skill>".toList <:+: findSkillMD F r.1) →
      occurrences "</skill>".toList
          (Join (skillBlocks F read ++ ["</available_skills>".toList]) "\n".toList) =
        read.length
  | [], _ => rfl
  | (absDir, props) :: rest, h => by
    have ih := occurrences_of_closing_tag F rest (fun r hr => h r (List.mem_cons_of_mem _ hr))
    have hl : ¬ "</skill>".toList <:+: findSkillMD F absDir :=
      h (absDir, props) (List.mem_cons_self _ _)
    have hn : neverStarts "</skill>".toList (EscapeString props.Name) = true :=
      escaped_never_starts "/skill>".toList props.Name
    have hd : neverStarts "</skill>".toList (EscapeString props.Description) = true :=
      escaped_never_starts "/skill>".toList props.Description
    rw [skillBlocks_cons, join_skillLines _ _ _ _ (by simp),
      occurrences_skip "</skill>".toList _ "<skill>".toList (by decide),
      occurrences_skip "</skill>".toList _ "\n<name>\n".toList (by decide),
      occurrences_skip "</skill>".toList _ _ hn,
      occurrences_skip "</skill>".toList _ "\n</name>\n<description>\n".toList (by decide),
      occurrences_skip "</skill>".toList _ _ hd,
      occurrences_skip "</skill>".toList _ "\n</description>\n<location>\n".toList
        (by decide),
      occurrences_skip_line "</skill>".toList "\n</location>\n".toList "</location>\n".toList _
        (by decide) rfl _ hl,
      occurrences_skip "</skill>".toList _ "\n</location>\n".toList (by decide),
      occurrences_at_match "</skill>".toList _ '<' "/skill>".toList rfl (by decide),
      occurrences_skip "</skill>".toList _ "\n".toList (by decide), ih, List.length_cons]
    omega

theorem forall₂_length {α β : Type} (R : α → β → Prop) :
    ∀ (xs : List α) (ys : List β), List.Forall₂ R xs ys → xs.length = ys.length
  | _, _, .nil => rfl
  | _, _, .cons _ h => by
    rw [List.length_cons, List.length_cons, forall₂_length R _ _ h]

set_option maxRecDepth 100000 in
/-- C24, as stated, fails: the directory `/skills/<skill>` is read successfully, and the output
of `ToPrompt` for the list of this one directory holds `<skill>` twice, once as the tag and once
in the location, which is not escaped.  In the same way the output for the one directory
`/skills/</skill>` holds `</skill>` twice. -/
theorem tag_in_location_is_counted :
    ToPrompt sampleProcess promptFiles yamlFragment ["<skill>".toList] =
      (("<available_skills>\n<skill>\n<name>\ntagged\n</name>\n<description>\n" ++
        "A skill in a directory named like a tag\n</description>\n<location>\n" ++
        "/skills/<skill>/SKILL.md\n</location>\n</skill>\n</available_skills>").toList,
        none) ∧
      occurrences "<skill>".toList
        (ToPrompt sampleProcess promptFiles yamlFragment ["<skill>".toList]).1 = 2 ∧
      ["<skill>".toList].length = 1 ∧
    ToPrompt sampleProcess promptFiles yamlFragment ["/skills/</skill>".toList] =
      (("<available_skills>\n<skill>\n<name>\nclosed\n</name>\n<description>\n" ++
        "A skill in a path that holds a closing tag\n</description>\n<location>\n" ++
        "/skills/</skill>/SKILL.md\n</location>\n</skill>\n</available_skills>").toList,
        none) ∧
      occurrences "</skill>".toList
        (ToPrompt sampleProcess promptFiles yamlFragment ["/skills/</skill>".toList]).1 = 2 ∧
      ["/skills/</skill>".toList].length = 1 := by
  refine ⟨rfl, rfl, rfl, rfl, rfl, rfl⟩

/-- C24 (amended): when every directory of the list is read successfully, the output of
`ToPrompt` holds the tag `<skill>` as many times as the list has directories provided that no
location (the path of the frontmatter file found) contains the text `<skill>`, and it holds the
tag `</skill>` as many times provided that no location contains the text `</skill>`; a directory
that is listed twice is counted twice. -/
theorem skill_tags_counted (P : Process) (F : FileSystem) (Y : YamlLib) (skillDirs : List Str)
    (read : List (Str × SkillProperties))
    (h : List.Forall₂ (readsAs P F Y) skillDirs read) :
    ((∀ r ∈ read, ¬ "<skill>".toList <:+: findSkillMD F r.1) →
      occurrences "<skill>".toList (ToPrompt P F Y skillDirs).1 = skillDirs.length) ∧
    ((∀ r ∈ read, ¬ "</skill>".toList <:+: findSkillMD F r.1) →
      occurrences "</skill>".toList (ToPrompt P F Y skillDirs).1 = skillDirs.length) := by
  have hlines : Join (["<available_skills>".toList] ++ skillBlocks F read ++
      ["</available_skills>".toList]) "\n".toList =
      "<available_skills>".toList ++ ("\n".toList ++
        Join (skillBlocks F read ++ ["</available_skills>".toList]) "\n".toList) := by
    show Join ("<available_skills>".toList ::
      (skillBlocks F read ++ ["</available_skills>".toList])) "\n".toList = _
    rw [join_cons _ _ _ (by simp), List.append_assoc]
  rw [toPrompt_of_read P F Y skillDirs read h, hlines, forall₂_length _ _ _ h]
  constructor
  · intro hloc
    rw [occurrences_skip "<skill>".toList _ "<available_skills>".toList (by decide),
      occurrences_skip "<skill>".toList _ "\n".toList (by decide)]
    exact occurrences_of_opening_tag F read hloc
  · intro hloc
    rw [occurrences_skip "</skill>".toList _ "<available_skills>".toList (by decide),
      occurrences_skip "</skill>".toList _ "\n".toList (by decide)]
    exact occurrences_of_closing_tag F read hloc

set_option maxRecDepth 100000 in
/-- C24 (amended) at the list that names the directory `valid-skill` twice: two tags of each
kind; and at the directory `/skills/a<b`, whose location holds the rune `<` and neither tag: one
tag of each kind. -/
theorem skill_tags_counted_witness :
    (occurrences "<skill>".toList (ToPrompt sampleProcess promptFiles yamlFragment
        ["valid-skill".toList, "/skills/valid-skill".toList]).1 = 2 ∧
      occurrences "</skill>".toList (ToPrompt sampleProcess promptFiles yamlFragment
        ["valid-skill".toList, "/skills/valid-skill".toList]).1 = 2) ∧
    (occurrences "<skill>".toList (ToPrompt sampleProcess promptFiles yamlFragment
        ["/skills/a<b".toList]).1 = 1 ∧
      occurrences "</skill>".toList (ToPrompt sampleProcess promptFiles yamlFragment
        ["/skills/a<b".toList]).1 = 1) :=
  ⟨⟨(skill_tags_counted sampleProcess promptFiles yamlFragment
      ["valid-skill".toList, "/skills/valid-skill".toList]
      [("/skills/valid-skill".toList,
         { Name := "valid-skill".toList, Description := "A valid test skill".toList,
           License := [], Compatibility := [], AllowedTools := [], Metadata := none }),
       ("/skills/valid-skill".toList,
         { Name := "valid-skill".toList, Description := "A valid test skill".toList,
           License := [], Compatibility := [], AllowedTools := [], Metadata := none })]
      (List.Forall₂.cons ⟨rfl, rfl⟩ (List.Forall₂.cons ⟨rfl, rfl⟩ List.Forall₂.nil))).1
      (by decide),
    (skill_tags_counted sampleProcess promptFiles yamlFragment
      ["valid-skill".toList, "/skills/valid-skill".toList]
      [("/skills/valid-skill".toList,
         { Name := "valid-skill".toList, Description := "A valid test skill".toList,
           License := [], Compatibility := [], AllowedTools := [], Metadata := none }),
       ("/skills/valid-skill".toList,
         { Name := "valid-skill".toList, Description := "A valid test skill".toList,
           License := [], Compatibility := [], AllowedTools := [], Metadata := none })]
      (List.Forall₂.cons ⟨rfl, rfl⟩ (List.Forall₂.cons ⟨rfl, rfl⟩ List.Forall₂.nil))).2
      (by decide)⟩,
   ⟨(skill_tags_counted sampleProcess promptFiles yamlFragment ["/skills/a<b".toList]
      [("/skills/a<b".toList,
         { Name := "angle".toList, Description := "A skill in a directory named with a rune".toList,
           License := [], Compatibility := [], AllowedTools := [], Metadata := none })]
      (List.Forall₂.cons ⟨rfl, rfl⟩ List.Forall₂.nil)).1 (by decide),
    (skill_tags_counted sampleProcess promptFiles yamlFragment ["/skills/a<b".toList]
      [("/skills/a<b".toList,
         { Name := "angle".toList, Description := "A skill in a directory named with a rune".toList,
           License := [], Compatibility := [], AllowedTools := [], Metadata := none })]
      (List.Forall₂.cons ⟨rfl, rfl⟩ List.Forall₂.nil)).2 (by decide)⟩⟩

/-! ## What full validation does guarantee on the required fields -/

/-- A mapping without validation errors holds strings under `name` and `description`, neither
of them the empty string (white space is not trimmed by these checks). -/
theorem validateMetadata_ok_required (U : UnicodeLib) (allowed : List Str)
    (metadata : RawMetadata) (skillDir : Str)
    (h : ValidateMetadata U allowed metadata skillDir = []) :
    ∃ n d, metadata.lookup "name".toList = some (.str n) ∧ n ≠ [] ∧
      metadata.lookup "description".toList = some (.str d) ∧ d ≠ [] := by
  rw [validateMetadata_append] at h
  obtain ⟨-, h2⟩ := List.append_eq_nil.1 h
  obtain ⟨hname, h3⟩ := List.append_eq_nil.1 h2
  obtain ⟨hdesc, -⟩ := List.append_eq_nil.1 h3
  have hn : ∃ n, metadata.lookup "name".toList = some (.str n) ∧ n ≠ [] := by
    unfold nameGroup at hname
    cases hl : metadata.lookup "name".toList with
    | none => rw [hl] at hname; exact absurd hname (List.cons_ne_nil _ _)
    | some v =>
      rw [hl] at hname
      simp only at hname
      by_cases hv : ∀ s, v ≠ .str s
      · rw [asString_of_not_str v hv, validateName_empty] at hname
        exact absurd hname (List.cons_ne_nil _ _)
      · push_neg at hv
        obtain ⟨n, rfl⟩ := hv
        refine ⟨n, rfl, fun hn0 => ?_⟩
        subst hn0
        rw [asString_str, validateName_empty] at hname
        exact absurd hname (List.cons_ne_nil _ _)
  have hd : ∃ d, metadata.lookup "description".toList = some (.str d) ∧ d ≠ [] := by
    unfold descriptionGroup at hdesc
    cases hl : metadata.lookup "description".toList with
    | none => rw [hl] at hdesc; exact absurd hdesc (List.cons_ne_nil _ _)
    | some v =>
      rw [hl] at hdesc
      simp only at hdesc
      by_cases hv : ∀ s, v ≠ .str s
      · rw [asString_of_not_str v hv, validateDescription_empty] at hdesc
        exact absurd hdesc (List.cons_ne_nil _ _)
      · push_neg at hv
        obtain ⟨d, rfl⟩ := hv
        refine ⟨d, rfl, fun hd0 => ?_⟩
        subst hd0
        rw [asString_str, validateDescription_empty] at hdesc
        exact absurd hdesc (List.cons_ne_nil _ _)
  obtain ⟨n, hn1, hn2⟩ := hn
  obtain ⟨d, hd1, hd2⟩ := hd
  exact ⟨n, d, hn1, hn2, hd1, hd2⟩

end AgentSkills
